import Mathlib

/-!
# Verification of the myvmk snowball dashboard core algorithms

This file gives a shallow embedding, in Lean 4, of the two core algorithms of the
repository:

* `inferTeamsWithBFS` — BFS-based two-coloring team inference with conflict
  detection and confidence scoring (source: the batch build script).
* `detectBattles` — gap-based temporal clustering of hit events into battles
  (source: `docs/app.js`).

Modelling conventions:

* JavaScript `Map` objects (insertion-ordered, string-keyed) are embedded as
  association lists `List (String × β)`; `amGet`/`amSet` mirror `Map.get`/`Map.set`
  (update-in-place for an existing key, append for a new one).
* JavaScript numbers are embedded as `ℚ` (exact arithmetic); `Math.round x` is
  `⌊x + 1/2⌋`, matching round-half-up semantics.
* Timestamps are parsed to an integer count of milliseconds since the epoch in a
  fixed-offset (timezone-free) local calendar, following the proleptic Gregorian
  arithmetic of the ECMAScript `Date(y, m, d, h, mi, s)` constructor.
* JavaScript's stable `Array.prototype.sort` (stability is mandated by ES2019+)
  is embedded as Mathlib's stable `List.insertionSort`: any two stable sorts
  agree on a consistent comparator, so this choice is faithful.
* The BFS work loop is embedded with an explicit fuel parameter; the fuel used by
  `inferTeamsWithBFS` is proved sufficient for the queue to drain
  (`bfsFuel_drains`), so the embedding computes the same fixpoint as the
  source's unbounded `while` loop.
-/

namespace Snowball

/-! ## Insertion-ordered string-keyed maps (JavaScript `Map`) -/

/-- Association list standing for a JavaScript `Map` with `String` keys. -/
abbrev AssocMap (β : Type) := List (String × β)

/-- `Map.get`: value of the first (hence, with unique keys, the only) binding. -/
def amGet {β : Type} (m : AssocMap β) (k : String) : Option β :=
  (m.find? (fun p => p.1 == k)).map (·.2)

/-- Pointwise update used by `amSet` when the key is already bound. -/
def setFn {β : Type} (k : String) (v : β) (p : String × β) : String × β :=
  if p.1 == k then (k, v) else p

/-- `Map.set`: overwrite the binding in place if the key is present, else append. -/
def amSet {β : Type} (m : AssocMap β) (k : String) (v : β) : AssocMap β :=
  if m.any (fun p => p.1 == k) then m.map (setFn k v) else m ++ [(k, v)]

/-- Keys of the map, in insertion order (`Map.keys`). -/
def amKeys {β : Type} (m : AssocMap β) : List String := m.map Prod.fst

/-- Ordered-set insertion (JavaScript `Set.add`). -/
def insertNew (l : List String) (x : String) : List String :=
  if l.contains x then l else l ++ [x]

/-! ## Shared data model -/

/-- One hit event, as produced by the upstream CSV parsing.  Absent fields are
the empty string (JavaScript falsy), matching the `normUser`/`normRoomId`
normalisation in the source. -/
structure HitEvent where
  time : String := ""
  attacker : String := ""
  victim : String := ""
  roomId : String := ""
  roomName : String := ""
  attackerTeam : String := ""
  victimTeam : String := ""
  value : Int := 0
deriving DecidableEq, Repr

/-- `opposite` from the source: flips the two real teams, anything else is
`"Unknown"`. -/
def opposite (team : String) : String :=
  if team = "Reindeer" then "Penguin"
  else if team = "Penguin" then "Reindeer"
  else "Unknown"

/-- The two real team labels. -/
def TeamVal (t : String) : Prop := t = "Penguin" ∨ t = "Reindeer"

instance : DecidablePred TeamVal := fun t => by unfold TeamVal; infer_instance

/-! ## Kernel-computable rational arithmetic

Mathlib's field instances on `ℚ` do not reduce under kernel evaluation, so the
embedding performs its JavaScript-number arithmetic through `Rat.divInt`,
`Rat.floor` and the structure projections, which do reduce; `qadd_eq` and
friends prove these operations agree with the `ℚ` operations, so all theorems
can be read over ordinary rational arithmetic. -/

/-- The rational value of a natural number. -/
def qofNat (n : Nat) : ℚ := Rat.divInt (n : Int) 1

/-- Addition on `ℚ` (agrees with `+`, see `qadd_eq`). -/
def qadd (a b : ℚ) : ℚ :=
  Rat.divInt (a.num * (b.den : Int) + b.num * (a.den : Int)) ((a.den : Int) * (b.den : Int))

/-- Subtraction on `ℚ` (agrees with `-`, see `qsub_eq`). -/
def qsub (a b : ℚ) : ℚ :=
  Rat.divInt (a.num * (b.den : Int) - b.num * (a.den : Int)) ((a.den : Int) * (b.den : Int))

/-- Multiplication on `ℚ` (agrees with `*`, see `qmul_eq`). -/
def qmul (a b : ℚ) : ℚ := Rat.divInt (a.num * b.num) ((a.den : Int) * (b.den : Int))

/-- Division on `ℚ` (agrees with `/`, including `x / 0 = 0`, see `qdiv_eq`). -/
def qdiv (a b : ℚ) : ℚ := Rat.divInt (a.num * (b.den : Int)) ((a.den : Int) * b.num)

/-- Minimum on `ℚ` (agrees with `min`, see `qmin_eq`). -/
def qmin (a b : ℚ) : ℚ :=
  if a.num * (b.den : Int) ≤ b.num * (a.den : Int) then a else b

/-- Absolute value on `ℚ` (agrees with `|·|`, see `qabs_eq`). -/
def qabs (a : ℚ) : ℚ := if a.num < 0 then Rat.divInt (-a.num) (a.den : Int) else a

/-- `Math.round`: round half up (agrees with `⌊q + 1/2⌋`, see `jsRound_eq`). -/
def jsRound (q : ℚ) : Int := Rat.floor (qadd q (Rat.divInt 1 2))

/-- `Math.round(q * 100) / 100`: round to two decimals. -/
def round2 (q : ℚ) : ℚ := Rat.divInt (jsRound (qmul q (qofNat 100))) 100

/-! ## Team inference engine (`inferTeamsWithBFS`) -/

/-- Evidence tally of an inferred user (`{ penguinVotes, reindeerVotes, totalEdges }`). -/
structure Tally where
  penguinVotes : Nat := 0
  reindeerVotes : Nat := 0
  totalEdges : Nat := 0
deriving DecidableEq, Repr

/-- A conflict record.  The source also carries a derived human-readable
`description` string, fully determined by the other fields; it is omitted here.
`user2/team2/source2` are `null` for the second (self-contradiction) kind. -/
structure Conflict where
  user1 : String
  team1 : String
  source1 : Option String
  user2 : Option String
  team2 : Option String
  source2 : Option String
  expected : String
  edgeCount : Nat
deriving DecidableEq, Repr

/-- Adjacency structure: user → (opponent → undirected edge count). -/
abbrev Adj := AssocMap (AssocMap Nat)

/-- Ensure a user has an (possibly empty) adjacency row. -/
def ensureKey (adj : Adj) (a : String) : Adj :=
  if adj.any (fun p => p.1 == a) then adj else adj ++ [(a, [])]

/-- `m.set(k, (m.get(k) || 0) + 1)`. -/
def bump (m : AssocMap Nat) (k : String) : AssocMap Nat :=
  amSet m k ((amGet m k).getD 0 + 1)

/-- `addEdge` from the source: increment both directions of the undirected edge.
For `a = b` the second increment reads the already-bumped row, so a self-hit
adds 2 to the self edge, exactly as the source's two sequential `Map.set`s do. -/
def addEdge (adj : Adj) (a b : String) : Adj :=
  let adj1 := ensureKey adj a
  let adj2 := ensureKey adj1 b
  let adj3 := amSet adj2 a (bump ((amGet adj2 a).getD []) b)
  amSet adj3 b (bump ((amGet adj3 b).getD []) a)

/-- Build the combat graph: an edge per event having both a (non-empty) attacker
and victim. -/
def buildAdj (events : List HitEvent) : Adj :=
  events.foldl
    (fun adj e => if e.attacker ≠ "" ∧ e.victim ≠ "" then addEdge adj e.attacker e.victim else adj)
    []

/-- All users appearing (non-empty) as attacker or victim, in first-appearance
order (the source's `allUsers` `Set`). -/
def allUsersOf (events : List HitEvent) : List String :=
  events.foldl
    (fun s e =>
      let s1 := if e.attacker ≠ "" then insertNew s e.attacker else s
      if e.victim ≠ "" then insertNew s1 e.victim else s1)
    []

/-- The mutable state of `inferTeamsWithBFS`. -/
structure InferState where
  teamOf : AssocMap String := []
  source : AssocMap String := []
  conf : AssocMap ℚ := []
  conflicts : List Conflict := []
  evidence : AssocMap Tally := []
  queue : List String := []
  visited : List String := []
deriving DecidableEq, Repr

/-- Seeding phase: entries of `seedTeams` whose value is exactly `"Penguin"` or
`"Reindeer"` get team, source `"seeded"` and confidence 1; everything else is
skipped.  The BFS queue and visited set start as the seeded keys. -/
def seedStep (st : InferState) (p : String × String) : InferState :=
  if p.2 = "Penguin" ∨ p.2 = "Reindeer" then
    { st with
      teamOf := amSet st.teamOf p.1 p.2
      source := amSet st.source p.1 "seeded"
      conf := amSet st.conf p.1 1 }
  else st

/-- Seed phase, part two: the BFS queue and visited set start as the seeded keys. -/
def seedInit (seedTeams : List (String × String)) : InferState :=
  let st := seedTeams.foldl seedStep ({} : InferState)
  { st with queue := amKeys st.teamOf, visited := amKeys st.teamOf }

/-- Add `w` votes for `team` to a tally (the source's evidence update). -/
def addVote (ev : Tally) (team : String) (w : Nat) : Tally :=
  if team = "Penguin" then
    { ev with penguinVotes := ev.penguinVotes + w, totalEdges := ev.totalEdges + w }
  else
    { ev with reindeerVotes := ev.reindeerVotes + w, totalEdges := ev.totalEdges + w }

/-- The conflict record pushed by the BFS loop for a same-team edge
`u — v` (where `v` currently holds `ct`). -/
def bfsConflict (u ut : String) (st : InferState) (vw : String × Nat) (ct : String) : Conflict :=
  { user1 := u, team1 := ut, source1 := amGet st.source u,
    user2 := some vw.1, team2 := some ct, source2 := amGet st.source vw.1,
    expected := opposite ut, edgeCount := vw.2 }

/-- Process one neighbor `(v, w)` of the dequeued user `u` (whose team is `ut`):
assign-and-enqueue if `v` is unassigned, record a conflict if `v` holds the same
team as `u`, otherwise (agreement) reinforce the evidence of an inferred `v`. -/
def visitEdge (u ut : String) (st : InferState) (vw : String × Nat) : InferState :=
  let v := vw.1
  let w := vw.2
  let expectedTeam := opposite ut
  match amGet st.teamOf v with
  | none =>
    let ev := (amGet st.evidence v).getD ({} : Tally)
    let st1 := { st with
      teamOf := amSet st.teamOf v expectedTeam
      source := amSet st.source v "inferred"
      evidence := amSet st.evidence v (addVote ev expectedTeam w) }
    if st1.visited.contains v then st1
    else { st1 with visited := st1.visited ++ [v], queue := st1.queue ++ [v] }
  | some currentTeam =>
    if currentTeam ≠ expectedTeam then
      { st with conflicts := st.conflicts ++ [bfsConflict u ut st vw currentTeam] }
    else if amGet st.source v = some "inferred" then
      let ev := (amGet st.evidence v).getD ({} : Tally)
      { st with evidence := amSet st.evidence v (addVote ev expectedTeam w) }
    else st

/-- One iteration of the BFS `while` loop: dequeue a user and visit all its
neighbors.  (A dequeued user is always assigned — see `bfs` invariants — so the
`getD "Unknown"` default for `ut` is never taken on reachable states; it mirrors
`opposite(undefined) = "Unknown"` in the source.) -/
def bfsStep (adj : Adj) (st : InferState) : InferState :=
  match st.queue with
  | [] => st
  | u :: rest =>
    let ut := (amGet st.teamOf u).getD "Unknown"
    let neighbors := (amGet adj u).getD []
    neighbors.foldl (visitEdge u ut) { st with queue := rest }

/-- The BFS loop with explicit fuel; `bfsFuel_drains` below shows the fuel used
by `inferTeamsWithBFS` empties the queue, so this equals the source's unbounded
loop. -/
def bfsFuel (adj : Adj) : Nat → InferState → InferState
  | 0, st => st
  | fuel + 1, st =>
    match st.queue with
    | [] => st
    | _ :: _ => bfsFuel adj fuel (bfsStep adj st)

/-- Confidence of an inferred user from its evidence tally (the source's
confidence computation, including the `total === 0` guard). -/
def confidenceOf (ev : Tally) : ℚ :=
  let total : ℚ := qadd (qofNat ev.penguinVotes) (qofNat ev.reindeerVotes)
  if total = 0 then 0
  else
    let margin : ℚ := qabs (qsub (qofNat ev.penguinVotes) (qofNat ev.reindeerVotes))
    let marginRatio := qdiv margin total
    let evidenceBonus := qmin (qofNat 1) (qdiv total (qofNat 20))
    round2 (qadd (qmul marginRatio (Rat.divInt 6 10)) (qmul evidenceBonus (Rat.divInt 4 10)))

/-- One step of the confidence pass: set the confidence of an inferred user
from its evidence entry. -/
def confStep (st : InferState) (conf : AssocMap ℚ) (p : String × Tally) : AssocMap ℚ :=
  if amGet st.source p.1 = some "inferred" then amSet conf p.1 (confidenceOf p.2) else conf

/-- Confidence pass: set the confidence of every inferred user with an evidence
entry. -/
def confPass (st : InferState) : InferState :=
  { st with conf := st.evidence.foldl (confStep st) st.conf }

/-- The self-contradiction conflict record (second kind; `user2 = null`). -/
def selfConflict (user team expected : String) (votes : Nat) : Conflict :=
  { user1 := user, team1 := team, source1 := some "inferred",
    user2 := none, team2 := none, source2 := none,
    expected := expected, edgeCount := votes }

/-- The (zero or one) self-contradiction conflicts contributed by one evidence
entry: an inferred user whose opposing vote count strictly exceeds twice the
assigned team's vote count is flagged. -/
def selfConflictsFor (st : InferState) (p : String × Tally) : List Conflict :=
  if amGet st.source p.1 = some "inferred" then
    let assignedTeam := amGet st.teamOf p.1
    if assignedTeam = some "Penguin" ∧ p.2.reindeerVotes > p.2.penguinVotes * 2 then
      [selfConflict p.1 "Penguin" "Reindeer" p.2.reindeerVotes]
    else if assignedTeam = some "Reindeer" ∧ p.2.penguinVotes > p.2.reindeerVotes * 2 then
      [selfConflict p.1 "Reindeer" "Penguin" p.2.penguinVotes]
    else []
  else []

/-- Second conflict pass: append the self-contradiction conflicts of every
inferred user.  Only `conflicts` is touched. -/
def conflictPass (st : InferState) : InferState :=
  { st with
    conflicts := st.evidence.foldl (fun cs p => cs ++ selfConflictsFor st p) st.conflicts }

/-- One step of the final pass: a still-unassigned user becomes
`"Unknown"` / 0 / `"unknown"`. -/
def unknownStep (st : InferState) (u : String) : InferState :=
  if (amGet st.teamOf u).isNone then
    { st with
      teamOf := amSet st.teamOf u "Unknown"
      conf := amSet st.conf u 0
      source := amSet st.source u "unknown" }
  else st

/-- Final pass: any user of the event list still unassigned becomes
`"Unknown"` / 0 / `"unknown"`. -/
def unknownPass (users : List String) (st : InferState) : InferState :=
  users.foldl unknownStep st

/-- State after the BFS propagation phase. -/
def bfsStateOf (events : List HitEvent) (seedTeams : List (String × String)) : InferState :=
  let adj := buildAdj events
  let st0 := seedInit seedTeams
  bfsFuel adj (2 * adj.length + st0.queue.length) st0

/-- State after the confidence pass. -/
def confStateOf (events : List HitEvent) (seedTeams : List (String × String)) : InferState :=
  confPass (bfsStateOf events seedTeams)

/-- State after the second (self-contradiction) conflict pass. -/
def conflictStateOf (events : List HitEvent) (seedTeams : List (String × String)) : InferState :=
  conflictPass (confStateOf events seedTeams)

/-- Final state of the inference run. -/
def inferRun (events : List HitEvent) (seedTeams : List (String × String)) : InferState :=
  unknownPass (allUsersOf events) (conflictStateOf events seedTeams)

/-- The record returned by `inferTeamsWithBFS`. -/
structure InferResult where
  teamMap : AssocMap String
  conflicts : List Conflict
  confidence : AssocMap ℚ
  inferenceSource : AssocMap String
deriving DecidableEq, Repr

/-- `inferTeamsWithBFS(events, seedTeams)`.  `seedTeams` is the entry list of a
JavaScript object, so its keys are pairwise distinct in every actual call. -/
def inferTeamsWithBFS (events : List HitEvent) (seedTeams : List (String × String)) :
    InferResult :=
  let st := inferRun events seedTeams
  { teamMap := st.teamOf, conflicts := st.conflicts,
    confidence := st.conf, inferenceSource := st.source }

/-- Reachability in the combat graph from a set of start users (the claims'
"path to a seeded user").  Edges are adjacency entries; `buildAdj` makes them
symmetric. -/
inductive Reachable (adj : Adj) (seeds : List String) : String → Prop
  | seed {u : String} : u ∈ seeds → Reachable adj seeds u
  | step {u v : String} (m : AssocMap Nat) (w : Nat) :
      Reachable adj seeds u → amGet adj u = some m → (v, w) ∈ m → Reachable adj seeds v

/-- The validly seeded users (value exactly `"Penguin"` or `"Reindeer"`). -/
def seedUsers (seedTeams : List (String × String)) : List String :=
  (seedTeams.filter (fun p => p.2 = "Penguin" ∨ p.2 = "Reindeer")).map Prod.fst

/-! ## Battle segmentation engine (`detectBattles`, `docs/app.js`)

Timestamp model.  `parseEventTime` returns `none` for the source's `null`
(falsy, dropped by `.filter(e => e.__t)`) and `some t?` for a constructed
`Date` — always a truthy object that survives that filter — where
`t? : Option Int` is its time value: `some` epoch milliseconds for a valid
date and `none` for an invalid one (`NaN` time value).  A `Date` is invalid
exactly when some constructor argument is `undefined` (a missing component:
`Number.isNaN(undefined)` is `false`, so the source's guard passes it) or
non-finite, or when the clipped time value leaves the ECMAScript range.
Components are converted by the full `Number` string grammar (`jsNumber`) and
the date by ECMAScript `MakeDay`/`MakeTime`/`TimeClip` semantics (per-argument
truncation toward zero, years 0..99 shifted by 1900, month/day overflow
normalisation) in a timezone-free local clock.  `Number` values are kept as
exact `m·10^e` rationals with the exact double overflow threshold
`2^1024 − 2^970`; rounding the mantissa to 53 bits before truncation is
idealised away, as with all JS doubles in this development.

Sort model.  The per-room comparator `a.__t - b.__t` is `NaN` when either
date is invalid, and ECMAScript `SortCompare` turns a `NaN` comparator result
into `+0`, a tie; with an invalid date present the comparator is inconsistent
and the overall order is implementation-defined.  The model fixes one
permitted outcome: a stable insertion sort in which comparisons against an
invalid date are ties (so elements of an already-ordered input keep their
places).  The gap test `(evt.__t - prev)/1000 ≤ 120` is false whenever either
time is `NaN`, so an invalid date never joins a cluster and only ever forms a
discarded singleton — hence `toISOString` never sees an invalid date. -/

/-- Split a character list on a separator, keeping empty fields (JavaScript
`String.split` with a single-character separator). -/
def splitOnCharAux (c : Char) : List Char → List Char → List String
  | [], acc => [⟨acc.reverse⟩]
  | x :: xs, acc =>
    if x = c then ⟨acc.reverse⟩ :: splitOnCharAux c xs []
    else splitOnCharAux c xs (x :: acc)

/-- JavaScript `str.split(c)` for a one-character separator. -/
def splitOnChar (c : Char) (s : String) : List String := splitOnCharAux c s.data []

/-- ECMAScript whitespace and line terminators, stripped by `Number(string)`. -/
def jsWhitespace (c : Char) : Bool :=
  c == ' ' || c == '\t' || c == '\n' || c == '\r' ||
  c.toNat == 11 || c.toNat == 12 || c.toNat == 0xA0 || c.toNat == 0x1680 ||
  (decide (0x2000 ≤ c.toNat) && decide (c.toNat ≤ 0x200A)) ||
  c.toNat == 0x2028 || c.toNat == 0x2029 || c.toNat == 0x202F ||
  c.toNat == 0x205F || c.toNat == 0x3000 || c.toNat == 0xFEFF

/-- Strip leading and trailing ECMAScript whitespace. -/
def trimJsWs (l : List Char) : List Char :=
  ((l.dropWhile jsWhitespace).reverse.dropWhile jsWhitespace).reverse

/-- The result of JavaScript `Number(string)`: `NaN`, a signed infinity, or a
finite double, kept as the exact value `m · 10^e10` of its source literal. -/
inductive JNum where
  | nan : JNum
  | inf (neg : Bool) : JNum
  | fin (m : Int) (e10 : Int) : JNum
deriving DecidableEq, Repr

/-- Value of a digit in bases up to 36, `none` for a non-digit. -/
def digitVal (base : Nat) (c : Char) : Option Nat :=
  let n := c.toNat
  let v : Option Nat :=
    if 48 ≤ n ∧ n ≤ 57 then some (n - 48)
    else if 97 ≤ n ∧ n ≤ 122 then some (n - 87)
    else if 65 ≤ n ∧ n ≤ 90 then some (n - 55)
    else none
  match v with
  | some v => if v < base then some v else none
  | none => none

/-- Consume a maximal run of digits: value, digit count, rest. -/
def takeDigits (base : Nat) : List Char → Nat → Nat → Nat × Nat × List Char
  | [], acc, cnt => (acc, cnt, [])
  | c :: cs, acc, cnt =>
    match digitVal base c with
    | some v => takeDigits base cs (acc * base + v) (cnt + 1)
    | none => (acc, cnt, c :: cs)

/-- An `ExponentPart`'s tail: optional sign then at least one digit, consuming
the whole rest. -/
def parseExpPart : List Char → Option Int
  | '+' :: cs =>
    match takeDigits 10 cs 0 0 with
    | (v, cnt, []) => if cnt == 0 then none else some (v : Int)
    | _ => none
  | '-' :: cs =>
    match takeDigits 10 cs 0 0 with
    | (v, cnt, []) => if cnt == 0 then none else some (-(v : Int))
    | _ => none
  | cs =>
    match takeDigits 10 cs 0 0 with
    | (v, cnt, []) => if cnt == 0 then none else some (v : Int)
    | _ => none

/-- The rest of a `StrUnsignedDecimalLiteral` after its integer digits:
optional fraction and exponent.  Returns the exact value as `m · 10^e`. -/
def parseDecTail (intVal : Nat) (hasInt : Bool) : List Char → Option (Nat × Int)
  | [] => if hasInt then some (intVal, 0) else none
  | '.' :: cs =>
    match takeDigits 10 cs 0 0 with
    | (fv, fc, rest) =>
      if !hasInt && fc == 0 then none
      else
        let m := intVal * 10 ^ fc + fv
        match rest with
        | [] => some (m, -(fc : Int))
        | 'e' :: cs2 => (parseExpPart cs2).map (fun ex => (m, ex - (fc : Int)))
        | 'E' :: cs2 => (parseExpPart cs2).map (fun ex => (m, ex - (fc : Int)))
        | _ => none
  | 'e' :: cs => if hasInt then (parseExpPart cs).map (fun ex => (intVal, ex)) else none
  | 'E' :: cs => if hasInt then (parseExpPart cs).map (fun ex => (intVal, ex)) else none
  | _ => none

/-- A whole `StrUnsignedDecimalLiteral` (without sign or `Infinity`). -/
def parseUnsigned (cs : List Char) : Option (Nat × Int) :=
  match takeDigits 10 cs 0 0 with
  | (iv, ic, rest) => parseDecTail iv (ic != 0) rest

/-- The characters of `"Infinity"`. -/
def jsInfinityChars : List Char := ['I', 'n', 'f', 'i', 'n', 'i', 't', 'y']

/-- Smallest magnitude at which round-to-nearest-even turns an exact value
into an IEEE-754 double infinity, `2^1024 - 2^970` as a literal (the kernel
unfolds `^` one step per exponent, so the closed form would not reduce). -/
def OVERFLOW_DOUBLE : Int :=
  179769313486231580793728971405303415079934132710037826936173778980444968292764750946649017977587207096330286416692887910946555547851940402630657488671505820681908902000708383676273854845817711531764475730270069855571366959622842914819860834936475292719074168444365510704342711559699508093042880177904174497792

/-- Does `m · 10^e` convert to a double infinity? -/
def jnOverflow (m e : Int) : Bool :=
  if 0 ≤ e then decide (OVERFLOW_DOUBLE ≤ (m.natAbs : Int) * 10 ^ e.toNat)
  else decide (OVERFLOW_DOUBLE * 10 ^ (-e).toNat ≤ (m.natAbs : Int))

/-- Apply the sign and the double overflow to a parsed literal value. -/
def finOrInf (neg : Bool) (m : Nat) (e : Int) : JNum :=
  if jnOverflow (m : Int) e then JNum.inf neg
  else JNum.fin (if neg then -(m : Int) else (m : Int)) e

/-- A radix literal's digits (after `0x`/`0o`/`0b`): at least one, consuming
the whole rest. -/
def radixRun (base : Nat) (cs : List Char) : JNum :=
  match takeDigits base cs 0 0 with
  | (v, cnt, []) => if cnt == 0 then JNum.nan else finOrInf false v 0
  | _ => JNum.nan

/-- A signed decimal literal or `Infinity`. -/
def signedTail (neg : Bool) (cs : List Char) : JNum :=
  if cs = jsInfinityChars then JNum.inf neg
  else
    match parseUnsigned cs with
    | some (m, e) => finOrInf neg m e
    | none => JNum.nan

/-- The `StringNumericLiteral` grammar on trimmed characters: empty is 0,
hex/octal/binary literals are unsigned, decimals take an optional sign,
fraction and exponent, `Infinity` is signed; anything else is `NaN`. -/
def jsNumberChars : List Char → JNum
  | [] => JNum.fin 0 0
  | '0' :: 'x' :: cs => radixRun 16 cs
  | '0' :: 'X' :: cs => radixRun 16 cs
  | '0' :: 'o' :: cs => radixRun 8 cs
  | '0' :: 'O' :: cs => radixRun 8 cs
  | '0' :: 'b' :: cs => radixRun 2 cs
  | '0' :: 'B' :: cs => radixRun 2 cs
  | '+' :: cs => signedTail false cs
  | '-' :: cs => signedTail true cs
  | cs => signedTail false cs

/-- JavaScript `Number(s)` in full (up to the declared exact-value reading of
doubles). -/
def jsNumber (s : String) : JNum := jsNumberChars (trimJsWs s.data)

/-- ECMAScript `ToIntegerOrInfinity` of a finite `m · 10^e`: truncation toward
zero. -/
def jsTrunc (m e : Int) : Int :=
  if 0 ≤ e then m * 10 ^ e.toNat else m.tdiv (10 ^ (-e).toNat)

/-- `m · 10^e − 1` in the same exact representation (the source's `month - 1`,
computed before `MakeDay` truncates). -/
def jnSub1 (m e : Int) : Int × Int :=
  if 0 ≤ e then (m * 10 ^ e.toNat - 1, 0) else (m - 10 ^ (-e).toNat, e)

/-- Days between a Gregorian civil date (month in 1..12) and 1970-01-01
(Hinnant's `days_from_civil`, the arithmetic behind ECMAScript `MakeDay`). -/
def daysFromCivil (y m d : Int) : Int :=
  let y2 := if m ≤ 2 then y - 1 else y
  let era := y2.fdiv 400
  let yoe := y2 - era * 400
  let mp := if 2 < m then m - 3 else m + 9
  let doy := (153 * mp + 2).fdiv 5 + d - 1
  let doe := yoe * 365 + yoe.fdiv 4 - yoe.fdiv 100 + doy
  era * 146097 + doe - 719468

/-- `MakeDay`/`MakeTime` on already-truncated integer arguments (`mo` is the
1-based month, possibly out of range): month and day-of-month overflow
normalise exactly as ECMAScript `MakeDay`, in a timezone-free local clock. -/
def epochMs (y mo d h mi s : Int) : Int :=
  let months := y * 12 + (mo - 1)
  let yn := months.fdiv 12
  let mn := months.fmod 12
  let day := daysFromCivil yn (mn + 1) 1 + (d - 1)
  ((day * 24 + h) * 60 + mi) * 60000 + s * 1000

/-- `TimeClip`'s bound: time values beyond ±8.64·10^15 ms make the date
invalid. -/
def TIME_CLIP_MAX : Int := 8640000000000000

/-- `new Date(y, mo − 1, d, h, mi, s)`'s time value (`some` ms, or `none` for
an invalid date): all six constructor arguments must be present and finite;
the year is shifted by 1900 when its truncation lies in 0..99; each argument
is truncated toward zero (the month after the source's `- 1`); the result is
range-clipped. -/
def mkDateMs : Option JNum → Option JNum → Option JNum → Option JNum → Option JNum →
    Option JNum → Option Int
  | some (JNum.fin ym ye), some (JNum.fin mom moe), some (JNum.fin dm de),
    some (JNum.fin hm he), some (JNum.fin mim mie), some (JNum.fin sm se) =>
    let yi := jsTrunc ym ye
    let yr := if 0 ≤ yi ∧ yi ≤ 99 then 1900 + yi else yi
    let mo1 := jnSub1 mom moe
    let ms := epochMs yr (jsTrunc mo1.1 mo1.2 + 1) (jsTrunc dm de) (jsTrunc hm he)
      (jsTrunc mim mie) (jsTrunc sm se)
    if (ms.natAbs : Int) ≤ TIME_CLIP_MAX then some ms else none
  | _, _, _, _, _, _ => none

/-- `parseEventTime` from `docs/app.js` (result in epoch milliseconds). -/
def parseEventTime (str : String) : Option (Option Int) :=
  if str = "" then none
  else
    match splitOnChar ' ' str with
    | datePart :: timePart :: _ =>
      if datePart = "" ∨ timePart = "" then none
      else
        let dn := (splitOnChar '-' datePart).map jsNumber
        let tn := (splitOnChar ':' timePart).map jsNumber
        if [dn[0]?, dn[1]?, dn[2]?, tn[0]?, tn[1]?, tn[2]?].any
            (fun c => decide (c = some JNum.nan)) then none
        else some (mkDateMs dn[0]? dn[1]? dn[2]? tn[0]? tn[1]? tn[2]?)
    | _ => none

/-- `BATTLE_MIN_HITS` from `docs/app.js`. -/
def BATTLE_MIN_HITS : Nat := 30

/-- `BATTLE_MAX_GAP_SECONDS` from `docs/app.js`. -/
def BATTLE_MAX_GAP_SECONDS : Int := 120

/-- An event together with its kept `Date` (the source's `__t` field), as its
time value: `some` epoch milliseconds, `none` for an invalid date (`NaN`). -/
structure TEvent where
  ev : HitEvent
  t : Option Int
deriving DecidableEq, Repr

/-- `evt.roomName || evt.roomId || "Unknown"`. -/
def roomKey (e : HitEvent) : String :=
  if e.roomName ≠ "" then e.roomName else if e.roomId ≠ "" then e.roomId else "Unknown"

/-- The rooms, in first-appearance order (the source's `byRoom` map keys). -/
def roomsOf (events : List HitEvent) : List String :=
  events.foldl (fun rs e => insertNew rs (roomKey e)) []

/-- Sort key of the per-room time sort, from the comparator
`a.__t - b.__t` under `SortCompare` (`NaN` result → `+0`): a tie — hence
"may stay before" — whenever either date is invalid. -/
def timeLE (a b : TEvent) : Prop :=
  match a.t, b.t with
  | some x, some y => x ≤ y
  | _, _ => True

instance : DecidableRel timeLE := fun a b => by
  unfold timeLE
  cases a.t <;> cases b.t <;> infer_instance

/-- A room's kept events (`parseEventTime ≠ null`, invalid dates included),
sorted by time with invalid dates as ties: a stable insertion sort realising
one of the ECMAScript-permitted orders (the comparator is inconsistent when an
invalid date is present, so the order is implementation-defined). -/
def timedSorted (events : List HitEvent) (room : String) : List TEvent :=
  List.insertionSort timeLE
    ((events.filter (fun e => roomKey e = room)).filterMap
      (fun e => (parseEventTime e.time).map (fun t => { ev := e, t := t })))

/-- The source's gap test `(evt.__t - prev) / 1000 ≤ maxGapSeconds` as the
equivalent millisecond comparison: false whenever either time is `NaN`. -/
def gapOkB (g : Int) (tp te : Option Int) : Bool :=
  match tp, te with
  | some p, some x => decide (x - p ≤ g)
  | _, _ => false

/-- The clustering sweep, after the first event seeded the open cluster.
`prev` is the previous event's time value and `cluster` the open cluster in
reverse order. -/
def sweepFrom (maxGapMs : Int) : Option Int → List TEvent → List TEvent → List (List TEvent)
  | _, cluster, [] => [cluster.reverse]
  | prev, cluster, e :: rest =>
    if gapOkB maxGapMs prev e.t then sweepFrom maxGapMs e.t (e :: cluster) rest
    else cluster.reverse :: sweepFrom maxGapMs e.t [e] rest

/-- All clusters (battle candidates, any size) of a time-sorted event list. -/
def clustersOf (maxGapMs : Int) : List TEvent → List (List TEvent)
  | [] => []
  | e :: rest => sweepFrom maxGapMs e.t [e] rest

/-- The within-cluster gap condition of the sweep: the gap test succeeded, so
both times are valid and at most `g` milliseconds apart. -/
def gapLE (g : Int) (a b : TEvent) : Prop := gapOkB g a.t b.t = true

/-- The between-cluster boundary condition of the sweep: the gap test failed
between the last event of one cluster and the first of the next — more than
`g` milliseconds apart, or no defined gap at all. -/
def boundaryGT (g : Int) (c1 c2 : List TEvent) : Prop :=
  ∀ x ∈ c1.getLast?, ∀ y ∈ c2.head?, gapOkB g x.t y.t = false

/-- Per-user tally inside one cluster (the source's `byUser` values; the team
is fixed at the user's first appearance). -/
structure PStat where
  user : String
  team : String
  attacks : Nat
  hitsTaken : Nat
deriving DecidableEq, Repr

/-- `t || "Unknown"` for team strings. -/
def orUnknown (t : String) : String := if t ≠ "" then t else "Unknown"

/-- Record one attack by `e.attacker`. -/
def addAttack (m : AssocMap PStat) (e : HitEvent) : AssocMap PStat :=
  let s := (amGet m e.attacker).getD
    { user := e.attacker, team := orUnknown e.attackerTeam, attacks := 0, hitsTaken := 0 }
  amSet m e.attacker { s with attacks := s.attacks + 1 }

/-- Record one hit taken by `e.victim`. -/
def addTaken (m : AssocMap PStat) (e : HitEvent) : AssocMap PStat :=
  let s := (amGet m e.victim).getD
    { user := e.victim, team := orUnknown e.victimTeam, attacks := 0, hitsTaken := 0 }
  amSet m e.victim { s with hitsTaken := s.hitsTaken + 1 }

/-- One scan over the cluster events: the `byUser` map and the `userSet`. -/
def clusterStats (cluster : List TEvent) : AssocMap PStat × List String :=
  cluster.foldl
    (fun acc te =>
      let e := te.ev
      let acc1 :=
        if e.attacker ≠ "" then (addAttack acc.1 e, insertNew acc.2 e.attacker) else acc
      if e.victim ≠ "" then (addTaken acc1.1 e, insertNew acc1.2 e.victim) else acc1)
    ([], [])

/-- `safeRatio` from the source: `attacks / hitsTaken`, with `attacks` (or 0)
when `hitsTaken = 0`. -/
def safeRatio (attacks hitsTaken : Nat) : ℚ :=
  if hitsTaken = 0 then (if attacks = 0 then 0 else qofNat attacks)
  else qdiv (qofNat attacks) (qofNat hitsTaken)

/-- A battle participant (a `byUser` value enriched with its ratio). -/
structure Participant where
  user : String
  team : String
  attacks : Nat
  hitsTaken : Nat
  ratio : ℚ
deriving DecidableEq, Repr

/-- Enrich a `PStat` with its ratio. -/
def mkParticipant (s : PStat) : Participant :=
  { user := s.user, team := s.team, attacks := s.attacks, hitsTaken := s.hitsTaken,
    ratio := safeRatio s.attacks s.hitsTaken }

/-- Comparator of the `participants` sort: total activity descending. -/
def totalDesc (a b : Participant) : Prop := b.attacks + b.hitsTaken ≤ a.attacks + a.hitsTaken

instance : DecidableRel totalDesc := fun a b => by unfold totalDesc; infer_instance

instance : IsTotal Participant totalDesc := ⟨fun _ _ => Nat.le_total _ _⟩

instance : IsTrans Participant totalDesc := ⟨fun _ _ _ h1 h2 => Nat.le_trans h2 h1⟩

/-- Comparator of the `topAttackers` sort: attacks descending. -/
def attacksDesc (a b : Participant) : Prop := b.attacks ≤ a.attacks

instance : DecidableRel attacksDesc := fun a b => by unfold attacksDesc; infer_instance

instance : IsTotal Participant attacksDesc := ⟨fun _ _ => Nat.le_total _ _⟩

instance : IsTrans Participant attacksDesc := ⟨fun _ _ _ h1 h2 => Nat.le_trans h2 h1⟩

/-- Comparator of the `topVictims` sort: hits taken descending. -/
def hitsDesc (a b : Participant) : Prop := b.hitsTaken ≤ a.hitsTaken

instance : DecidableRel hitsDesc := fun a b => by unfold hitsDesc; infer_instance

instance : IsTotal Participant hitsDesc := ⟨fun _ _ => Nat.le_total _ _⟩

instance : IsTrans Participant hitsDesc := ⟨fun _ _ _ h1 h2 => Nat.le_trans h2 h1⟩

/-- A `topAttackers` entry. -/
structure TopAttacker where
  user : String
  team : String
  attacks : Nat
deriving DecidableEq, Repr

/-- A `topVictims` entry. -/
structure TopVictim where
  user : String
  team : String
  hitsTaken : Nat
deriving DecidableEq, Repr

/-- A detected battle.  The source serialises `start`/`end` through
`Date.toISOString()`, an order- and value-preserving encoding of the epoch
milliseconds stored here (the final sort re-parses them with `new Date`). -/
structure Battle where
  id : String
  roomName : String
  startMs : Int
  endMs : Int
  durationMinutes : Int
  hitCount : Nat
  uniqueUsers : Nat
  topAttackers : List TopAttacker
  topVictims : List TopVictim
  participants : List Participant
deriving DecidableEq, Repr

/-- The cluster's participants in first-appearance order, before the
total-activity sort. -/
def baseParticipants (cluster : List TEvent) : List Participant :=
  ((clusterStats cluster).1).map (fun p => mkParticipant p.2)

/-- The `participants` array: stats sorted by total activity descending. -/
def participantsOf (cluster : List TEvent) : List Participant :=
  List.insertionSort totalDesc (baseParticipants cluster)

/-- `topAttackers`: attackers only, attacks descending, first three. -/
def topAttackersOf (participants : List Participant) : List TopAttacker :=
  ((List.insertionSort attacksDesc (participants.filter (fun p => 0 < p.attacks))).take 3).map
    (fun p => { user := p.user, team := p.team, attacks := p.attacks })

/-- `topVictims`: victims only, hits taken descending, first three. -/
def topVictimsOf (participants : List Participant) : List TopVictim :=
  ((List.insertionSort hitsDesc (participants.filter (fun p => 0 < p.hitsTaken))).take 3).map
    (fun p => { user := p.user, team := p.team, hitsTaken := p.hitsTaken })

/-- Build the battle emitted by `flush` for a (nonempty, large enough)
cluster.  Emitted clusters provably contain only valid dates (an invalid date
never joins a cluster), so the `getD 0` defaults are dead branches — the
source's `toISOString` would otherwise throw. -/
def mkBattle (room : String) (idx : Nat) (cluster : List TEvent) : Battle :=
  let start := (cluster.head?.bind (fun te => te.t)).getD 0
  let endT := (cluster.getLast?.bind (fun te => te.t)).getD 0
  let participants := participantsOf cluster
  { id := room ++ "-" ++ toString idx
    roomName := room
    startMs := start
    endMs := endT
    durationMinutes := max 1 (jsRound (Rat.divInt (endT - start) 60000))
    hitCount := cluster.length
    uniqueUsers := (clusterStats cluster).2.length
    topAttackers := topAttackersOf participants
    topVictims := topVictimsOf participants
    participants := participants }

/-- Pair each element with a counter starting at `i` (the source's per-room
`roomCounter`, which only advances on emitted battles). -/
def numberFrom {α : Type} (i : Nat) : List α → List (Nat × α)
  | [] => []
  | x :: xs => (i, x) :: numberFrom (i + 1) xs

/-- Comparator of the final battle sort: start time descending. -/
def startDesc (a b : Battle) : Prop := b.startMs ≤ a.startMs

instance : DecidableRel startDesc := fun a b => by unfold startDesc; infer_instance

instance : IsTotal Battle startDesc := ⟨fun _ _ => Int.le_total _ _⟩

instance : IsTrans Battle startDesc := ⟨fun _ _ _ h1 h2 => Int.le_trans h2 h1⟩

/-- One room's battles: clusters of at least `BATTLE_MIN_HITS` events, numbered
in chronological order. -/
def battlesOfRoom (events : List HitEvent) (room : String) : List Battle :=
  let clusters := clustersOf (BATTLE_MAX_GAP_SECONDS * 1000) (timedSorted events room)
  (numberFrom 1 (clusters.filter (fun c => BATTLE_MIN_HITS ≤ c.length))).map
    (fun ic => mkBattle room ic.1 ic.2)

/-- `detectBattles` from `docs/app.js`: all rooms' battles, sorted by start
time descending. -/
def detectBattles (events : List HitEvent) : List Battle :=
  List.insertionSort startDesc
    ((roomsOf events).foldl (fun acc r => acc ++ battlesOfRoom events r) [])

/-- Modelled from the spec: the `topAttackers` list as claim C9 words it — the
top 3 participants by attacks descending with ties broken by original evidence
(first-appearance) order — for comparison against `topAttackersOf`, which the
source computes from the total-activity-sorted `participants` array instead. -/
def topAttackersSpec (cluster : List TEvent) : List TopAttacker :=
  ((List.insertionSort attacksDesc (baseParticipants cluster)).take 3).map
    (fun p => { user := p.user, team := p.team, attacks := p.attacks })

/-! ## Concrete inputs used by witnesses and counterexamples -/

/-- The spec's inference scenario: `A` hits `B`, `B` hits `C`, seed `A = Penguin`. -/
def ex1Events : List HitEvent :=
  [{ attacker := "A", victim := "B" }, { attacker := "B", victim := "C" }]

/-- Seed of the inference scenario. -/
def ex1Seed : List (String × String) := [("A", "Penguin")]

/-- Twenty hits of `A` on `X`. -/
def c10Events : List HitEvent :=
  List.replicate 20 { attacker := "A", victim := "X" }

/-- A valid seed for `A` and an invalid (lowercase) seed value for `X`. -/
def c10Seed : List (String × String) := [("A", "Penguin"), ("X", "unknown")]

/-- Two-digit zero-padded rendering of minutes/seconds. -/
def pad2 (n : Nat) : String := if n < 10 then "0" ++ toString n else toString n

/-- `10:00:00 + 30·k` seconds on 2024-01-15, as a log timestamp. -/
def exTime (k : Nat) : String :=
  "2024-01-15 10:" ++ pad2 (k * 30 / 60) ++ ":" ++ pad2 (k * 30 % 60)

/-- The spec's battle scenario: 35 events at 30-second spacing from 10:00:00,
then a lone event at 10:20:00, all in room `Lobby`. -/
def c8Events : List HitEvent :=
  ((List.range 35).map (fun k =>
    { time := exTime k, attacker := "A", victim := "B", roomId := "1", roomName := "Lobby" })) ++
  [{ time := "2024-01-15 10:20:00", attacker := "A", victim := "B", roomId := "1",
     roomName := "Lobby" }]

/-- A single 35-event cluster in room `R` designed to make `topAttackers`
tie-breaking observable: `A` and `B` each attack once (in that order of first
appearance), `C` attacks 33 times, and `B` takes 33 hits. -/
def c9Events : List HitEvent :=
  (List.range 35).map (fun k =>
    if k = 0 then { time := exTime k, attacker := "A", victim := "V", roomName := "R" }
    else if k = 1 then { time := exTime k, attacker := "B", victim := "V", roomName := "R" }
    else { time := exTime k, attacker := "C", victim := "B", roomName := "R" })

/-- The C6 counterexample input: thirty 30-second-spaced events, one event
with a missing seconds component (kept by the source as a truthy invalid
`Date`), then thirty more 30-second-spaced events resuming 60 s after the
first block, all in room `Lobby`. -/
def c6Events : List HitEvent :=
  ((List.range 30).map (fun k =>
    { time := exTime k, attacker := "A", victim := "B", roomId := "1", roomName := "Lobby" })) ++
  [{ time := "2024-01-15 10:15", attacker := "A", victim := "B", roomId := "1",
     roomName := "Lobby" }] ++
  ((List.range 30).map (fun k =>
    { time := exTime (k + 31), attacker := "A", victim := "B", roomId := "1",
      roomName := "Lobby" }))

/-- The (single) battle cluster of the C8 scenario. -/
def c8Cluster : List TEvent :=
  (clustersOf (BATTLE_MAX_GAP_SECONDS * 1000) (timedSorted c8Events "Lobby")).headD []

/-- The (single) battle cluster of the C9 scenario. -/
def c9Cluster : List TEvent :=
  (clustersOf (BATTLE_MAX_GAP_SECONDS * 1000) (timedSorted c9Events "R")).headD []

/-! ## Invariant predicates -/

/-- Every neighbor named inside the adjacency structure has its own row
(`addEdge` guarantees this). -/
def AdjClosed (adj : Adj) : Prop := ∀ p ∈ adj, ∀ q ∈ p.2, q.1 ∈ amKeys adj

/-- Every edge weight is at least 1. -/
def AdjPos (adj : Adj) : Prop := ∀ p ∈ adj, ∀ q ∈ p.2, 1 ≤ q.2

/-- The invariants of the inference state that hold from seeding up to (and
including) the two post-BFS passes, before the final `unknownPass`. -/
structure WFState (st : InferState) : Prop where
  teamVals : ∀ p ∈ st.teamOf, TeamVal p.2
  srcVals : ∀ p ∈ st.source, p.2 = "seeded" ∨ p.2 = "inferred"
  srcTeam : ∀ p ∈ st.source, ∃ t, amGet st.teamOf p.1 = some t
  teamSrc : ∀ p ∈ st.teamOf, ∃ s, amGet st.source p.1 = some s
  seededConf : ∀ p ∈ st.source, p.2 = "seeded" → amGet st.conf p.1 = some 1
  infEvidence : ∀ p ∈ st.source, p.2 = "inferred" →
    ∃ tal, amGet st.evidence p.1 = some tal ∧ 0 < tal.penguinVotes + tal.reindeerVotes
  queueTeam : ∀ u ∈ st.queue, ∃ t, amGet st.teamOf u = some t
  confVals : ∀ p ∈ st.conf, 0 ≤ p.2 ∧ p.2 ≤ 1
  confTeam : ∀ p ∈ st.conf, ∃ t, amGet st.teamOf p.1 = some t
  evKeysNodup : (amKeys st.evidence).Nodup

/-- Measure of the BFS loop: unvisited adjacency rows count twice, plus the
queue length.  Each loop iteration strictly decreases it. -/
def bfsMeasure (adj : Adj) (st : InferState) : Nat :=
  2 * ((amKeys adj).filter (fun k => !(st.visited.contains k))).length + st.queue.length

/-! ## Association-map lemmas -/

theorem foldl_inv {α σ : Type*} {f : σ → α → σ} (P : σ → Prop) :
    ∀ {l : List α} {s : σ}, P s → (∀ s a, a ∈ l → P s → P (f s a)) → P (l.foldl f s) := by
  intro l
  induction l with
  | nil => intro s hs _; exact hs
  | cons x xs ih =>
    intro s hs hstep
    exact ih (hstep s x (List.mem_cons_self x xs) hs)
      (fun s a ha hp => hstep s a (List.mem_cons_of_mem x ha) hp)

theorem setFn_fst {β : Type} (k : String) (v : β) (p : String × β) :
    (setFn k v p).1 = p.1 := by
  unfold setFn
  split
  · next h => exact (show p.1 = k from by simpa using h).symm
  · rfl

theorem amKeys_amSet {β : Type} (m : AssocMap β) (k : String) (v : β) :
    amKeys (amSet m k v) =
      if m.any (fun p => p.1 == k) then amKeys m else amKeys m ++ [k] := by
  unfold amSet
  split
  · simp only [amKeys, List.map_map]
    exact List.map_congr_left (fun p _ => setFn_fst k v p)
  · simp [amKeys]

theorem amGet_map_setFn_self {β : Type} {m : AssocMap β} {k : String} (v : β)
    (h : m.any (fun p => p.1 == k) = true) :
    amGet (m.map (setFn k v)) k = some v := by
  induction m with
  | nil => simp at h
  | cons p rest ih =>
    by_cases hpk : p.1 == k
    · simp [amGet, setFn, hpk, List.find?]
    · have h' : rest.any (fun p => p.1 == k) = true := by
        simp only [List.any_cons, hpk, Bool.false_or] at h
        exact h
      have := ih h'
      simp only [amGet, List.map_cons, List.find?] at this ⊢
      rw [show setFn k v p = p from by simp [setFn, hpk]]
      simp only [hpk]
      exact this

theorem amGet_map_setFn_ne {β : Type} {m : AssocMap β} {k k' : String} (v : β)
    (h : k' ≠ k) :
    amGet (m.map (setFn k v)) k' = amGet m k' := by
  induction m with
  | nil => rfl
  | cons p rest ih =>
    by_cases hpk : p.1 == k
    · have hp : setFn k v p = (k, v) := by simp [setFn, hpk]
      have hkk' : (k == k') = false := by
        simp only [beq_eq_false_iff_ne, ne_eq]
        exact fun hh => h hh.symm
      have hpk' : (p.1 == k') = false := by
        have : p.1 = k := by simpa using hpk
        simp [this, hkk']
      simp only [amGet, List.map_cons, hp, List.find?, hkk', hpk']
      exact ih
    · have hp : setFn k v p = p := by simp [setFn, hpk]
      simp only [amGet, List.map_cons, hp, List.find?]
      cases hfind : (p.1 == k') with
      | true => rfl
      | false => exact ih

theorem amGet_append_single_self {β : Type} {m : AssocMap β} {k : String} (v : β)
    (h : m.any (fun p => p.1 == k) = false) :
    amGet (m ++ [(k, v)]) k = some v := by
  induction m with
  | nil => simp [amGet, List.find?]
  | cons p rest ih =>
    simp only [List.any_cons, Bool.or_eq_false_iff] at h
    simp only [amGet, List.cons_append, List.find?, h.1]
    exact ih h.2

theorem amGet_append_single_ne {β : Type} {m : AssocMap β} {k k' : String} (v : β)
    (h : k' ≠ k) :
    amGet (m ++ [(k, v)]) k' = amGet m k' := by
  induction m with
  | nil =>
    have : (k == k') = false := by
      simp only [beq_eq_false_iff_ne, ne_eq]
      exact fun hh => h hh.symm
    simp [amGet, List.find?, this]
  | cons p rest ih =>
    simp only [amGet, List.cons_append, List.find?] at ih ⊢
    cases hfind : (p.1 == k') with
    | true => rfl
    | false => exact ih

theorem amGet_amSet_self {β : Type} (m : AssocMap β) (k : String) (v : β) :
    amGet (amSet m k v) k = some v := by
  unfold amSet
  split
  · next h => exact amGet_map_setFn_self v h
  · next h => exact amGet_append_single_self v (Bool.not_eq_true _ ▸ h)

theorem amGet_amSet_ne {β : Type} (m : AssocMap β) {k k' : String} (v : β)
    (h : k' ≠ k) :
    amGet (amSet m k v) k' = amGet m k' := by
  unfold amSet
  split
  · exact amGet_map_setFn_ne v h
  · exact amGet_append_single_ne v h

theorem amGet_amSet {β : Type} (m : AssocMap β) (k k' : String) (v : β) :
    amGet (amSet m k v) k' = if k' = k then some v else amGet m k' := by
  split
  · next h => rw [h]; exact amGet_amSet_self m k v
  · next h => exact amGet_amSet_ne m v h

theorem amGet_mem {β : Type} {m : AssocMap β} {k : String} {v : β}
    (h : amGet m k = some v) : (k, v) ∈ m := by
  unfold amGet at h
  rcases Option.map_eq_some'.mp h with ⟨q, hq, hv⟩
  have hk : q.1 = k := by simpa using List.find?_some hq
  have : q = (k, v) := Prod.ext hk hv
  exact this ▸ List.mem_of_find?_eq_some hq

theorem amGet_eq_none_iff {β : Type} {m : AssocMap β} {k : String} :
    amGet m k = none ↔ k ∉ amKeys m := by
  unfold amGet amKeys
  rw [Option.map_eq_none', List.find?_eq_none]
  constructor
  · intro h hmem
    rcases List.mem_map.mp hmem with ⟨p, hp, rfl⟩
    exact (by simpa using h p hp : False).elim
  · intro h p hp hpk
    exact h (List.mem_map.mpr ⟨p, hp, by simpa using hpk⟩)

theorem amGet_isSome_of_mem_keys {β : Type} {m : AssocMap β} {k : String}
    (h : k ∈ amKeys m) : ∃ v, amGet m k = some v := by
  cases hget : amGet m k with
  | none => exact absurd h (amGet_eq_none_iff.mp hget)
  | some v => exact ⟨v, rfl⟩

theorem amSet_forall {β : Type} {m : AssocMap β} {k : String} {v : β}
    {P : String × β → Prop} (hm : ∀ p ∈ m, P p) (hv : P (k, v)) :
    ∀ p ∈ amSet m k v, P p := by
  intro p hp
  unfold amSet at hp
  split at hp
  · rcases List.mem_map.mp hp with ⟨q, hq, rfl⟩
    unfold setFn
    split
    · exact hv
    · exact hm q hq
  · rcases List.mem_append.mp hp with h | h
    · exact hm p h
    · rw [List.mem_singleton.mp h]
      exact hv

theorem amKeys_nodup_amSet {β : Type} {m : AssocMap β} (k : String) (v : β)
    (h : (amKeys m).Nodup) : (amKeys (amSet m k v)).Nodup := by
  rw [amKeys_amSet]
  split
  · exact h
  · next hany =>
    have hk : k ∉ amKeys m := by
      intro hmem
      rcases List.mem_map.mp hmem with ⟨p, hp, rfl⟩
      have : m.any (fun q => q.1 == p.1) = true := List.any_eq_true.mpr ⟨p, hp, by simp⟩
      simp [this] at hany
    simp [List.nodup_append, h, hk]

theorem any_key_iff {β : Type} {m : AssocMap β} {k : String} :
    m.any (fun p => p.1 == k) = true ↔ k ∈ amKeys m := by
  rw [List.any_eq_true]
  constructor
  · rintro ⟨p, hp, hpk⟩
    exact List.mem_map.mpr ⟨p, hp, by simpa using hpk⟩
  · intro h
    rcases List.mem_map.mp h with ⟨p, hp, rfl⟩
    exact ⟨p, hp, by simp⟩

theorem mem_amKeys_amSet {β : Type} {m : AssocMap β} {k x : String} {v : β} :
    x ∈ amKeys (amSet m k v) ↔ x ∈ amKeys m ∨ x = k := by
  rw [amKeys_amSet]
  split
  · next h =>
    constructor
    · exact Or.inl
    · rintro (hx | rfl)
      · exact hx
      · exact any_key_iff.mp h
  · simp

theorem amKeys_subset_amSet {β : Type} (m : AssocMap β) (k : String) (v : β) :
    ∀ x ∈ amKeys m, x ∈ amKeys (amSet m k v) := fun _ hx => mem_amKeys_amSet.mpr (Or.inl hx)

theorem self_mem_amKeys_amSet {β : Type} (m : AssocMap β) (k : String) (v : β) :
    k ∈ amKeys (amSet m k v) := mem_amKeys_amSet.mpr (Or.inr rfl)

theorem mem_amKeys_ensureKey {adj : Adj} {a x : String} :
    x ∈ amKeys (ensureKey adj a) ↔ x ∈ amKeys adj ∨ x = a := by
  unfold ensureKey
  split
  · next h =>
    constructor
    · exact Or.inl
    · rintro (hx | rfl)
      · exact hx
      · exact any_key_iff.mp h
  · simp [amKeys]

theorem amGet_getD_mem {β : Type} {m : AssocMap β} {k : String} (d : β)
    (h : k ∈ amKeys m) : (k, (amGet m k).getD d) ∈ m := by
  rcases amGet_isSome_of_mem_keys h with ⟨v, hv⟩
  rw [hv]
  exact amGet_mem hv

/-! ## Combat-graph wellformedness -/

theorem bump_forall {m : AssocMap Nat} {k : String}
    {P : String × Nat → Prop} (hm : ∀ p ∈ m, P p) (hv : P (k, (amGet m k).getD 0 + 1)) :
    ∀ p ∈ bump m k, P p := amSet_forall hm hv

theorem amKeys_bump {m : AssocMap Nat} {k x : String} :
    x ∈ amKeys (bump m k) ↔ x ∈ amKeys m ∨ x = k := mem_amKeys_amSet

theorem ensureKey_closed_aux {adj : Adj} {a : String}
    (h : AdjClosed adj) : AdjClosed (ensureKey adj a) := by
  intro p hp q hq
  unfold ensureKey at hp
  split at hp
  · exact mem_amKeys_ensureKey.mpr (Or.inl (h p hp q hq))
  · rcases List.mem_append.mp hp with hp' | hp'
    · exact mem_amKeys_ensureKey.mpr (Or.inl (h p hp' q hq))
    · rw [List.mem_singleton.mp hp'] at hq
      simp at hq

theorem ensureKey_pos {adj : Adj} {a : String}
    (h : AdjPos adj) : AdjPos (ensureKey adj a) := by
  intro p hp q hq
  unfold ensureKey at hp
  split at hp
  · exact h p hp q hq
  · rcases List.mem_append.mp hp with hp' | hp'
    · exact h p hp' q hq
    · rw [List.mem_singleton.mp hp'] at hq
      simp at hq

theorem addEdge_closed {adj : Adj} {a b : String}
    (hc : AdjClosed adj) : AdjClosed (addEdge adj a b) := by
  unfold addEdge
  have hc1 : AdjClosed (ensureKey adj a) := ensureKey_closed_aux hc
  have hc2 : AdjClosed (ensureKey (ensureKey adj a) b) := ensureKey_closed_aux hc1
  set adj2 := ensureKey (ensureKey adj a) b with hadj2
  have ha2 : a ∈ amKeys adj2 := mem_amKeys_ensureKey.mpr (Or.inl (mem_amKeys_ensureKey.mpr (Or.inr rfl)))
  have hb2 : b ∈ amKeys adj2 := mem_amKeys_ensureKey.mpr (Or.inr rfl)
  set rowA := bump ((amGet adj2 a).getD []) b with hrowA
  set adj3 := amSet adj2 a rowA with hadj3
  have hrowAkeys : ∀ q ∈ rowA, q.1 ∈ amKeys adj2 := by
    intro q hq
    rw [hrowA] at hq
    unfold bump at hq
    refine @amSet_forall _ ((amGet adj2 a).getD []) _ _ (fun q => q.1 ∈ amKeys adj2) ?_ hb2 q hq
    intro p hp
    exact hc2 _ (amGet_getD_mem [] ha2) p hp
  have hc3 : AdjClosed adj3 := by
    intro p hp q hq
    rw [hadj3] at hp
    refine @amSet_forall _ _ _ _ (fun p => ∀ q ∈ p.2, q.1 ∈ amKeys adj3) ?_ ?_ p hp q hq
    · intro p' hp' q' hq'
      exact amKeys_subset_amSet _ _ _ _ (hc2 p' hp' q' hq')
    · intro q' hq'
      exact amKeys_subset_amSet _ _ _ _ (hrowAkeys q' hq')
  have ha3 : a ∈ amKeys adj3 := amKeys_subset_amSet _ _ _ _ ha2
  have hb3 : b ∈ amKeys adj3 := amKeys_subset_amSet _ _ _ _ hb2
  set rowB := bump ((amGet adj3 b).getD []) a with hrowB
  have hrowBkeys : ∀ q ∈ rowB, q.1 ∈ amKeys adj3 := by
    intro q hq
    rw [hrowB] at hq
    unfold bump at hq
    refine @amSet_forall _ ((amGet adj3 b).getD []) _ _ (fun q => q.1 ∈ amKeys adj3) ?_ ha3 q hq
    intro p hp
    exact hc3 _ (amGet_getD_mem [] hb3) p hp
  intro p hp q hq
  refine @amSet_forall _ _ _ _ (fun p => ∀ q ∈ p.2, q.1 ∈ amKeys (amSet adj3 b rowB)) ?_ ?_ p hp q hq
  · intro p' hp' q' hq'
    exact amKeys_subset_amSet _ _ _ _ (hc3 p' hp' q' hq')
  · intro q' hq'
    exact amKeys_subset_amSet _ _ _ _ (hrowBkeys q' hq')

theorem bump_pos {m : AssocMap Nat} {k : String}
    (h : ∀ p ∈ m, 1 ≤ p.2) : ∀ p ∈ bump m k, 1 ≤ p.2 := by
  refine bump_forall h ?_
  simp

theorem addEdge_pos {adj : Adj} {a b : String}
    (hp : AdjPos adj) : AdjPos (addEdge adj a b) := by
  unfold addEdge
  have hp2 : AdjPos (ensureKey (ensureKey adj a) b) := ensureKey_pos (ensureKey_pos hp)
  set adj2 := ensureKey (ensureKey adj a) b
  have hrowA : ∀ q ∈ bump ((amGet adj2 a).getD []) b, 1 ≤ q.2 := by
    refine bump_pos ?_
    intro p hpm
    cases hget : amGet adj2 a with
    | none => rw [hget] at hpm; simp at hpm
    | some row =>
      rw [hget] at hpm
      exact hp2 _ (amGet_mem hget) p hpm
  set adj3 := amSet adj2 a (bump ((amGet adj2 a).getD []) b) with hadj3
  have hp3 : AdjPos adj3 := by
    intro p hpm q hq
    rw [hadj3] at hpm
    exact @amSet_forall _ _ _ _ (fun p => ∀ q ∈ p.2, 1 ≤ q.2) (fun p' hp' => hp2 p' hp') hrowA p hpm q hq
  have hrowB : ∀ q ∈ bump ((amGet adj3 b).getD []) a, 1 ≤ q.2 := by
    refine bump_pos ?_
    intro p hpm
    cases hget : amGet adj3 b with
    | none => rw [hget] at hpm; simp at hpm
    | some row =>
      rw [hget] at hpm
      exact hp3 _ (amGet_mem hget) p hpm
  intro p hpm q hq
  exact @amSet_forall _ _ _ _ (fun p => ∀ q ∈ p.2, 1 ≤ q.2) (fun p' hp' => hp3 p' hp') hrowB p hpm q hq

theorem buildAdj_closed (events : List HitEvent) : AdjClosed (buildAdj events) := by
  unfold buildAdj
  refine foldl_inv _ ?_ ?_
  · intro p hp
    simp at hp
  · intro adj e _ hc
    split
    · exact addEdge_closed hc
    · exact hc

theorem buildAdj_pos (events : List HitEvent) : AdjPos (buildAdj events) := by
  unfold buildAdj
  refine foldl_inv _ ?_ ?_
  · intro p hp
    simp at hp
  · intro adj e _ hc
    split
    · exact addEdge_pos hc
    · exact hc

/-! ## `visitEdge` case analysis and step lemmas -/

theorem opposite_teamVal {t : String} (h : TeamVal t) : TeamVal (opposite t) := by
  rcases h with h | h <;> rw [h] <;> simp [opposite, TeamVal]

theorem addVote_pos_mono {ev : Tally} {team : String} {w : Nat}
    (h : 0 < ev.penguinVotes + ev.reindeerVotes) :
    0 < (addVote ev team w).penguinVotes + (addVote ev team w).reindeerVotes := by
  unfold addVote
  split <;> simp <;> omega

theorem addVote_pos_of_w {ev : Tally} {team : String} {w : Nat} (h : 1 ≤ w) :
    0 < (addVote ev team w).penguinVotes + (addVote ev team w).reindeerVotes := by
  unfold addVote
  split <;> simp <;> omega

theorem visitEdge_cases (u ut : String) (st : InferState) (vw : String × Nat) :
    (amGet st.teamOf vw.1 = none ∧
      (visitEdge u ut st vw).teamOf = amSet st.teamOf vw.1 (opposite ut) ∧
      (visitEdge u ut st vw).source = amSet st.source vw.1 "inferred" ∧
      (visitEdge u ut st vw).evidence =
        amSet st.evidence vw.1
          (addVote ((amGet st.evidence vw.1).getD ({} : Tally)) (opposite ut) vw.2) ∧
      (visitEdge u ut st vw).conf = st.conf ∧
      (visitEdge u ut st vw).conflicts = st.conflicts ∧
      ((st.visited.contains vw.1 = true ∧
          (visitEdge u ut st vw).queue = st.queue ∧
          (visitEdge u ut st vw).visited = st.visited) ∨
        (st.visited.contains vw.1 = false ∧
          (visitEdge u ut st vw).queue = st.queue ++ [vw.1] ∧
          (visitEdge u ut st vw).visited = st.visited ++ [vw.1]))) ∨
    (∃ ct, amGet st.teamOf vw.1 = some ct ∧ ct ≠ opposite ut ∧
      visitEdge u ut st vw =
        { st with conflicts := st.conflicts ++ [bfsConflict u ut st vw ct] }) ∨
    (amGet st.teamOf vw.1 = some (opposite ut) ∧ amGet st.source vw.1 = some "inferred" ∧
      visitEdge u ut st vw =
        { st with evidence := amSet st.evidence vw.1 (addVote ((amGet st.evidence vw.1).getD ({} : Tally)) (opposite ut) vw.2) }) ∨
    (amGet st.teamOf vw.1 = some (opposite ut) ∧ amGet st.source vw.1 ≠ some "inferred" ∧
      visitEdge u ut st vw = st) := by
  cases hv : amGet st.teamOf vw.1 with
  | none =>
    left
    refine ⟨rfl, ?_⟩
    by_cases hvis : st.visited.contains vw.1
    · have he : visitEdge u ut st vw =
        { st with
          teamOf := amSet st.teamOf vw.1 (opposite ut)
          source := amSet st.source vw.1 "inferred"
          evidence := amSet st.evidence vw.1 (addVote ((amGet st.evidence vw.1).getD ({} : Tally)) (opposite ut) vw.2) } := by
        simp only [visitEdge, hv, hvis, if_true]
      rw [he]
      exact ⟨rfl, rfl, rfl, rfl, rfl, Or.inl ⟨hvis, rfl, rfl⟩⟩
    · have hvis' : st.visited.contains vw.1 = false := by simpa using hvis
      have he : visitEdge u ut st vw =
        { st with
          teamOf := amSet st.teamOf vw.1 (opposite ut)
          source := amSet st.source vw.1 "inferred"
          evidence := amSet st.evidence vw.1 (addVote ((amGet st.evidence vw.1).getD ({} : Tally)) (opposite ut) vw.2)
          visited := st.visited ++ [vw.1]
          queue := st.queue ++ [vw.1] } := by
        simp only [visitEdge, hv, hvis', Bool.false_eq_true, if_false]
      rw [he]
      exact ⟨rfl, rfl, rfl, rfl, rfl, Or.inr ⟨hvis', rfl, rfl⟩⟩
  | some ct =>
    right
    have hbody : visitEdge u ut st vw =
        (if ct ≠ opposite ut then
          { st with conflicts := st.conflicts ++ [bfsConflict u ut st vw ct] }
        else if amGet st.source vw.1 = some "inferred" then
          { st with evidence := amSet st.evidence vw.1 (addVote ((amGet st.evidence vw.1).getD ({} : Tally)) (opposite ut) vw.2) }
        else st) := by
      simp only [visitEdge, hv]
    by_cases hct : ct ≠ opposite ut
    · left
      exact ⟨ct, rfl, hct, by rw [hbody, if_pos hct]⟩
    · right
      push_neg at hct
      subst hct
      rw [if_neg (by simp)] at hbody
      by_cases hsrc : amGet st.source vw.1 = some "inferred"
      · left
        exact ⟨rfl, hsrc, by rw [hbody, if_pos hsrc]⟩
      · right
        exact ⟨rfl, hsrc, by rw [hbody, if_neg hsrc]⟩

theorem visitEdge_conf_eq (u ut : String) (st : InferState) (vw : String × Nat) :
    (visitEdge u ut st vw).conf = st.conf := by
  rcases visitEdge_cases u ut st vw with
    ⟨_, _, _, _, hc, _, _⟩ | ⟨ct, _, _, heq⟩ | ⟨_, _, heq⟩ | ⟨_, _, heq⟩
  · exact hc
  all_goals rw [heq]

theorem visitEdge_conflicts_append (u ut : String) (st : InferState) (vw : String × Nat) :
    ∃ tail, (visitEdge u ut st vw).conflicts = st.conflicts ++ tail := by
  rcases visitEdge_cases u ut st vw with
    ⟨_, _, _, _, _, hc, _⟩ | ⟨ct, _, _, heq⟩ | ⟨_, _, heq⟩ | ⟨_, _, heq⟩
  · exact ⟨[], by simp [hc]⟩
  · exact ⟨[bfsConflict u ut st vw ct], by rw [heq]⟩
  · exact ⟨[], by rw [heq]; simp⟩
  · exact ⟨[], by rw [heq]; simp⟩

theorem visitEdge_team_mono {u ut : String} {st : InferState} {vw : String × Nat}
    {x : String} {t : String} (hx : amGet st.teamOf x = some t) :
    amGet (visitEdge u ut st vw).teamOf x = some t := by
  rcases visitEdge_cases u ut st vw with
    ⟨hv, ht, _, _, _, _, _⟩ | ⟨ct, _, _, heq⟩ | ⟨_, _, heq⟩ | ⟨_, _, heq⟩
  · rw [ht]
    have hne : x ≠ vw.1 := fun h => by rw [h, hv] at hx; exact Option.noConfusion hx
    rw [amGet_amSet_ne _ _ hne]
    exact hx
  all_goals rw [heq]; exact hx

theorem visitEdge_team_back {u ut : String} {st : InferState} {vw : String × Nat}
    {x : String} {t : String} (hx : amGet (visitEdge u ut st vw).teamOf x = some t) :
    amGet st.teamOf x = some t ∨
      (x = vw.1 ∧ t = opposite ut ∧ amGet st.teamOf vw.1 = none) := by
  rcases visitEdge_cases u ut st vw with
    ⟨hv, ht, _, _, _, _, _⟩ | ⟨ct, _, _, heq⟩ | ⟨_, _, heq⟩ | ⟨_, _, heq⟩
  · rw [ht] at hx
    by_cases hxe : x = vw.1
    · subst hxe
      rw [amGet_amSet_self] at hx
      exact Or.inr ⟨rfl, (Option.some_injective _ hx).symm, hv⟩
    · rw [amGet_amSet_ne _ _ hxe] at hx
      exact Or.inl hx
  all_goals rw [heq] at hx; exact Or.inl hx

theorem visitEdge_source_mono {u ut : String} {st : InferState} {vw : String × Nat}
    {x s : String} (hst : ∀ p ∈ st.source, ∃ t', amGet st.teamOf p.1 = some t')
    (hx : amGet st.source x = some s) :
    amGet (visitEdge u ut st vw).source x = some s := by
  rcases visitEdge_cases u ut st vw with
    ⟨hv, _, hs, _, _, _, _⟩ | ⟨ct, _, _, heq⟩ | ⟨_, _, heq⟩ | ⟨_, _, heq⟩
  · rw [hs]
    have hne : x ≠ vw.1 := by
      intro h
      rcases hst (x, s) (amGet_mem hx) with ⟨t', ht'⟩
      rw [h] at ht'
      rw [hv] at ht'
      exact Option.noConfusion ht'
    rw [amGet_amSet_ne _ _ hne]
    exact hx
  all_goals rw [heq]; exact hx

theorem visitEdge_source_back {u ut : String} {st : InferState} {vw : String × Nat}
    {x s : String} (hx : amGet (visitEdge u ut st vw).source x = some s) :
    amGet st.source x = some s ∨ s = "inferred" := by
  rcases visitEdge_cases u ut st vw with
    ⟨hv, _, hs, _, _, _, _⟩ | ⟨ct, _, _, heq⟩ | ⟨_, _, heq⟩ | ⟨_, _, heq⟩
  · rw [hs] at hx
    by_cases hxe : x = vw.1
    · subst hxe
      rw [amGet_amSet_self] at hx
      exact Or.inr (Option.some_injective _ hx).symm
    · rw [amGet_amSet_ne _ _ hxe] at hx
      exact Or.inl hx
  all_goals rw [heq] at hx; exact Or.inl hx

theorem amGet_ne_of_some_none {β : Type} {m : AssocMap β} {x y : String} {v : β}
    (hx : amGet m x = some v) (hy : amGet m y = none) : x ≠ y := fun h => by
  rw [h, hy] at hx
  exact Option.noConfusion hx

theorem mem_key_isSome {β : Type} {m : AssocMap β} {p : String × β} (hp : p ∈ m) :
    ∃ v, amGet m p.1 = some v :=
  amGet_isSome_of_mem_keys (List.mem_map.mpr ⟨p, hp, rfl⟩)

theorem visitEdge_evidence_pos_mono {u ut : String} {st : InferState} {vw : String × Nat}
    {x : String}
    (h : ∃ tal, amGet st.evidence x = some tal ∧ 0 < tal.penguinVotes + tal.reindeerVotes) :
    ∃ tal, amGet (visitEdge u ut st vw).evidence x = some tal ∧
      0 < tal.penguinVotes + tal.reindeerVotes := by
  rcases h with ⟨tal, htal, hpos⟩
  rcases visitEdge_cases u ut st vw with
    ⟨hv, _, _, he, _, _, _⟩ | ⟨ct, _, _, heq⟩ | ⟨_, _, heq⟩ | ⟨_, _, heq⟩
  · rw [he]
    by_cases hxe : x = vw.1
    · subst hxe
      rw [amGet_amSet_self, htal]
      exact ⟨_, rfl, addVote_pos_mono (by simpa [htal] using hpos)⟩
    · rw [amGet_amSet_ne _ _ hxe]
      exact ⟨tal, htal, hpos⟩
  · rw [heq]
    exact ⟨tal, htal, hpos⟩
  · rw [heq]
    dsimp only
    by_cases hxe : x = vw.1
    · subst hxe
      rw [amGet_amSet_self, htal]
      exact ⟨_, rfl, addVote_pos_mono (by simpa [htal] using hpos)⟩
    · rw [amGet_amSet_ne _ _ hxe]
      exact ⟨tal, htal, hpos⟩
  · rw [heq]
    exact ⟨tal, htal, hpos⟩

theorem wf_visitEdge {u ut : String} {st : InferState} {vw : String × Nat}
    (hwf : WFState st) (hut : TeamVal (opposite ut)) (hw : 1 ≤ vw.2) :
    WFState (visitEdge u ut st vw) := by
  rcases visitEdge_cases u ut st vw with
    ⟨hv, ht, hs, he, hcf, hcl, hqv⟩ | ⟨ct, hv, hct, heq⟩ | ⟨hv, hsrc, heq⟩ | ⟨hv, hsrc, heq⟩
  · refine ⟨?_, ?_, ?_, ?_, ?_, ?_, ?_, ?_, ?_, ?_⟩
    · rw [ht]
      exact amSet_forall hwf.teamVals hut
    · rw [hs]
      exact amSet_forall hwf.srcVals (Or.inr rfl)
    · rw [hs, ht]
      refine amSet_forall ?_ ?_
      · intro p hp
        rcases hwf.srcTeam p hp with ⟨t, htp⟩
        have hne : p.1 ≠ vw.1 := amGet_ne_of_some_none htp hv
        exact ⟨t, by rw [amGet_amSet_ne _ _ hne]; exact htp⟩
      · exact ⟨opposite ut, amGet_amSet_self _ _ _⟩
    · rw [ht, hs]
      refine amSet_forall ?_ ?_
      · intro p hp
        rcases hwf.teamSrc p hp with ⟨s, hsp⟩
        rcases mem_key_isSome hp with ⟨t0, ht0⟩
        have hne : p.1 ≠ vw.1 := amGet_ne_of_some_none ht0 hv
        exact ⟨s, by rw [amGet_amSet_ne _ _ hne]; exact hsp⟩
      · exact ⟨"inferred", amGet_amSet_self _ _ _⟩
    · rw [hs, hcf]
      refine amSet_forall ?_ ?_
      · exact hwf.seededConf
      · intro hcontra
        simp at hcontra
    · rw [hs, he]
      refine amSet_forall ?_ ?_
      · intro p hp hinf
        rcases hwf.infEvidence p hp hinf with ⟨tal, htal, hpos⟩
        by_cases hpe : p.1 = vw.1
        · rw [hpe, amGet_amSet_self]
          rw [hpe] at htal
          rw [htal]
          exact ⟨_, rfl, addVote_pos_mono (by simpa using hpos)⟩
        · rw [amGet_amSet_ne _ _ hpe]
          exact ⟨tal, htal, hpos⟩
      · intro _
        rw [amGet_amSet_self]
        exact ⟨_, rfl, addVote_pos_of_w hw⟩
    · intro u' hu'
      have hcase : u' ∈ st.queue ∨ u' = vw.1 := by
        rcases hqv with ⟨_, hq, _⟩ | ⟨_, hq, _⟩
        · rw [hq] at hu'
          exact Or.inl hu'
        · rw [hq] at hu'
          rcases List.mem_append.mp hu' with h | h
          · exact Or.inl h
          · exact Or.inr (List.mem_singleton.mp h)
      rw [ht]
      rcases hcase with h | rfl
      · rcases hwf.queueTeam u' h with ⟨t, htp⟩
        have hne : u' ≠ vw.1 := amGet_ne_of_some_none htp hv
        exact ⟨t, by rw [amGet_amSet_ne _ _ hne]; exact htp⟩
      · exact ⟨opposite ut, amGet_amSet_self _ _ _⟩
    · rw [hcf]
      exact hwf.confVals
    · rw [hcf, ht]
      intro p hp
      rcases hwf.confTeam p hp with ⟨t, htp⟩
      have hne : p.1 ≠ vw.1 := amGet_ne_of_some_none htp hv
      exact ⟨t, by rw [amGet_amSet_ne _ _ hne]; exact htp⟩
    · rw [he]
      exact amKeys_nodup_amSet _ _ hwf.evKeysNodup
  · rw [heq]
    exact ⟨hwf.teamVals, hwf.srcVals, hwf.srcTeam, hwf.teamSrc, hwf.seededConf,
      hwf.infEvidence, hwf.queueTeam, hwf.confVals, hwf.confTeam, hwf.evKeysNodup⟩
  · rw [heq]
    refine ⟨hwf.teamVals, hwf.srcVals, hwf.srcTeam, hwf.teamSrc, hwf.seededConf, ?_,
      hwf.queueTeam, hwf.confVals, hwf.confTeam, ?_⟩
    · intro p hp hinf
      rcases hwf.infEvidence p hp hinf with ⟨tal, htal, hpos⟩
      by_cases hpe : p.1 = vw.1
      · dsimp only
        rw [hpe, amGet_amSet_self]
        rw [hpe] at htal
        rw [htal]
        exact ⟨_, rfl, addVote_pos_mono (by simpa using hpos)⟩
      · dsimp only
        rw [amGet_amSet_ne _ _ hpe]
        exact ⟨tal, htal, hpos⟩
    · exact amKeys_nodup_amSet _ _ hwf.evKeysNodup
  · rw [heq]
    exact hwf

/-! ## BFS loop lemmas -/

theorem neighbors_pos {adj : Adj} (hpos : AdjPos adj) (u : String) :
    ∀ vw ∈ (amGet adj u).getD [], 1 ≤ vw.2 := by
  intro vw hvw
  cases hget : amGet adj u with
  | none => rw [hget] at hvw; simp at hvw
  | some m =>
    rw [hget] at hvw
    exact hpos _ (amGet_mem hget) vw hvw

theorem queue_head_teamVal {st : InferState} {u : String} {rest : List String}
    (hwf : WFState st) (hq : st.queue = u :: rest) :
    TeamVal ((amGet st.teamOf u).getD "Unknown") := by
  rcases hwf.queueTeam u (by rw [hq]; exact List.mem_cons_self u rest) with ⟨t, ht⟩
  rw [ht]
  exact hwf.teamVals _ (amGet_mem ht)

theorem wf_queue_tail {st : InferState} {u : String} {rest : List String}
    (hwf : WFState st) (hq : st.queue = u :: rest) :
    WFState { st with queue := rest } :=
  ⟨hwf.teamVals, hwf.srcVals, hwf.srcTeam, hwf.teamSrc, hwf.seededConf, hwf.infEvidence,
    fun u' hu' => hwf.queueTeam u' (by rw [hq]; exact List.mem_cons_of_mem u hu'),
    hwf.confVals, hwf.confTeam, hwf.evKeysNodup⟩

theorem wf_bfsStep {adj : Adj} {st : InferState} (hpos : AdjPos adj) (hwf : WFState st) :
    WFState (bfsStep adj st) := by
  unfold bfsStep
  cases hq : st.queue with
  | nil => exact hwf
  | cons u rest =>
    refine foldl_inv _ (wf_queue_tail hwf hq) ?_
    intro s vw hvw hwfs
    exact wf_visitEdge hwfs (opposite_teamVal (queue_head_teamVal hwf hq))
      (neighbors_pos hpos u vw hvw)

theorem bfsStep_team_mono {adj : Adj} {st : InferState} {x t : String}
    (hx : amGet st.teamOf x = some t) :
    amGet (bfsStep adj st).teamOf x = some t := by
  unfold bfsStep
  cases hq : st.queue with
  | nil => exact hx
  | cons u rest =>
    refine foldl_inv (fun (s : InferState) => amGet s.teamOf x = some t) hx ?_
    intro s vw _ hs
    exact visitEdge_team_mono hs

theorem bfsStep_conf_eq (adj : Adj) (st : InferState) :
    (bfsStep adj st).conf = st.conf := by
  unfold bfsStep
  cases hq : st.queue with
  | nil => rfl
  | cons u rest =>
    refine foldl_inv (fun (s : InferState) => s.conf = st.conf) rfl ?_
    intro s vw _ hs
    rw [visitEdge_conf_eq]
    exact hs

theorem bfsStep_conflicts_append (adj : Adj) (st : InferState) :
    ∃ tail, (bfsStep adj st).conflicts = st.conflicts ++ tail := by
  unfold bfsStep
  cases hq : st.queue with
  | nil => exact ⟨[], by simp⟩
  | cons u rest =>
    refine foldl_inv (fun (s : InferState) => ∃ tail, s.conflicts = st.conflicts ++ tail) ⟨[], by simp⟩ ?_
    intro s vw _ hs
    rcases hs with ⟨tail, htail⟩
    rcases visitEdge_conflicts_append u _ s vw with ⟨tail2, htail2⟩
    exact ⟨tail ++ tail2, by rw [htail2, htail, List.append_assoc]⟩

theorem bfsStep_wf_source_mono {adj : Adj} {st : InferState} {x s0 : String}
    (hpos : AdjPos adj) (hwf : WFState st) (hx : amGet st.source x = some s0) :
    amGet (bfsStep adj st).source x = some s0 ∧ WFState (bfsStep adj st) := by
  unfold bfsStep
  cases hq : st.queue with
  | nil => exact ⟨hx, hwf⟩
  | cons u rest =>
    refine foldl_inv (fun (s : InferState) => amGet s.source x = some s0 ∧ WFState s)
      ⟨hx, wf_queue_tail hwf hq⟩ ?_
    intro s vw hvw hs
    refine ⟨visitEdge_source_mono hs.2.srcTeam hs.1, ?_⟩
    exact wf_visitEdge hs.2 (opposite_teamVal (queue_head_teamVal hwf hq))
      (neighbors_pos hpos u vw hvw)

theorem bfsStep_source_back {adj : Adj} {st : InferState} {x s0 : String}
    (hx : amGet (bfsStep adj st).source x = some s0) :
    amGet st.source x = some s0 ∨ s0 = "inferred" := by
  revert hx
  unfold bfsStep
  cases hq : st.queue with
  | nil => exact Or.inl
  | cons u rest =>
    have : ∀ l : List (String × Nat), ∀ s : InferState,
        (amGet s.source x = some s0 → amGet st.source x = some s0 ∨ s0 = "inferred") →
        (amGet (l.foldl (visitEdge u ((amGet st.teamOf u).getD "Unknown")) s).source x = some s0 →
          amGet st.source x = some s0 ∨ s0 = "inferred") := by
      intro l
      induction l with
      | nil => intro s h; exact h
      | cons vw rest2 ih =>
        intro s h
        refine ih _ ?_
        intro hafter
        rcases visitEdge_source_back hafter with h' | h'
        · exact h h'
        · exact Or.inr h'
    exact this _ _ (fun h => Or.inl h)

theorem bfsStep_team_back {adj : Adj} {st : InferState} {x t : String}
    (hx : amGet (bfsStep adj st).teamOf x = some t) :
    amGet st.teamOf x = some t ∨
      ∃ u m, u ∈ st.queue ∧ amGet adj u = some m ∧ ∃ w, (x, w) ∈ m := by
  revert hx
  unfold bfsStep
  cases hq : st.queue with
  | nil => exact Or.inl
  | cons u rest =>
    cases hadj : amGet adj u with
    | none =>
      simp only [hadj, Option.getD_none]
      intro hx
      exact Or.inl hx
    | some m =>
      simp only [hadj, Option.getD_some]
      have : ∀ l : List (String × Nat), (∀ vw ∈ l, vw ∈ m) → ∀ s : InferState,
          (amGet s.teamOf x = some t → amGet st.teamOf x = some t ∨ ∃ w, (x, w) ∈ m) →
          (amGet ((l.foldl (visitEdge u ((amGet st.teamOf u).getD "Unknown")) s)).teamOf x = some t →
            amGet st.teamOf x = some t ∨ ∃ w, (x, w) ∈ m) := by
        intro l
        induction l with
        | nil => intro _ s h; exact h
        | cons vw rest2 ih =>
          intro hsub s h
          refine ih (fun q hq2 => hsub q (List.mem_cons_of_mem vw hq2)) _ ?_
          intro hafter
          rcases visitEdge_team_back hafter with h' | ⟨hxe, _, _⟩
          · exact h h'
          · subst hxe
            exact Or.inr ⟨vw.2, by
              have := hsub vw (List.mem_cons_self vw rest2)
              simpa using this⟩
      intro hx
      rcases this m (fun q hq2 => hq2) { st with queue := rest } (fun h => Or.inl h) hx with
        h | ⟨w, hw⟩
      · exact Or.inl h
      · exact Or.inr ⟨u, m, List.mem_cons_self u rest, hadj, w, hw⟩

theorem bfsFuel_team_mono {adj : Adj} {x t : String} :
    ∀ (fuel : Nat) (st : InferState), amGet st.teamOf x = some t →
      amGet (bfsFuel adj fuel st).teamOf x = some t := by
  intro fuel
  induction fuel with
  | zero => intro st hx; exact hx
  | succ n ih =>
    intro st hx
    unfold bfsFuel
    cases hq : st.queue with
    | nil => exact hx
    | cons u rest => exact ih _ (bfsStep_team_mono hx)

theorem wf_bfsFuel {adj : Adj} (hpos : AdjPos adj) :
    ∀ (fuel : Nat) (st : InferState), WFState st → WFState (bfsFuel adj fuel st) := by
  intro fuel
  induction fuel with
  | zero => intro st h; exact h
  | succ n ih =>
    intro st hwf
    unfold bfsFuel
    cases hq : st.queue with
    | nil => exact hwf
    | cons u rest => exact ih _ (wf_bfsStep hpos hwf)

theorem bfsFuel_conf_eq (adj : Adj) :
    ∀ (fuel : Nat) (st : InferState), (bfsFuel adj fuel st).conf = st.conf := by
  intro fuel
  induction fuel with
  | zero => intro st; rfl
  | succ n ih =>
    intro st
    unfold bfsFuel
    cases hq : st.queue with
    | nil => rfl
    | cons u rest => rw [ih _, bfsStep_conf_eq]

theorem bfsFuel_conflicts_append (adj : Adj) :
    ∀ (fuel : Nat) (st : InferState),
      ∃ tail, (bfsFuel adj fuel st).conflicts = st.conflicts ++ tail := by
  intro fuel
  induction fuel with
  | zero => intro st; exact ⟨[], by simp [bfsFuel]⟩
  | succ n ih =>
    intro st
    unfold bfsFuel
    cases hq : st.queue with
    | nil => exact ⟨[], by simp⟩
    | cons u rest =>
      rcases ih (bfsStep adj st) with ⟨tail, htail⟩
      rcases bfsStep_conflicts_append adj st with ⟨tail2, htail2⟩
      exact ⟨tail2 ++ tail, by rw [htail, htail2, List.append_assoc]⟩

theorem bfsFuel_wf_source_mono {adj : Adj} {x s0 : String} (hpos : AdjPos adj) :
    ∀ (fuel : Nat) (st : InferState), WFState st → amGet st.source x = some s0 →
      amGet (bfsFuel adj fuel st).source x = some s0 := by
  intro fuel
  induction fuel with
  | zero => intro st _ hx; exact hx
  | succ n ih =>
    intro st hwf hx
    unfold bfsFuel
    cases hq : st.queue with
    | nil => exact hx
    | cons u rest =>
      rcases bfsStep_wf_source_mono hpos hwf hx with ⟨hx', hwf'⟩
      exact ih _ hwf' hx'

theorem bfsFuel_source_back {adj : Adj} {x s0 : String} :
    ∀ (fuel : Nat) (st : InferState),
      amGet (bfsFuel adj fuel st).source x = some s0 →
      amGet st.source x = some s0 ∨ s0 = "inferred" := by
  intro fuel
  induction fuel with
  | zero => intro st hx; exact Or.inl hx
  | succ n ih =>
    intro st
    unfold bfsFuel
    cases hq : st.queue with
    | nil => exact Or.inl
    | cons u rest =>
      intro hx
      rcases ih _ hx with h | h
      · exact bfsStep_source_back h
      · exact Or.inr h

/-! ## Seeding lemmas -/

theorem seedStep_lookup_ne {st : InferState} {p : String × String} {u : String}
    (hne : p.1 ≠ u) :
    amGet (seedStep st p).teamOf u = amGet st.teamOf u ∧
    amGet (seedStep st p).source u = amGet st.source u ∧
    amGet (seedStep st p).conf u = amGet st.conf u := by
  unfold seedStep
  split
  · refine ⟨?_, ?_, ?_⟩ <;> exact amGet_amSet_ne _ _ (fun h => hne h.symm)
  · exact ⟨rfl, rfl, rfl⟩

theorem seedFold_preserve {u : String} :
    ∀ (l : List (String × String)), u ∉ (l.filter (fun p =>
        decide (p.2 = "Penguin" ∨ p.2 = "Reindeer"))).map Prod.fst →
    ∀ st0 : InferState,
      amGet (l.foldl seedStep st0).teamOf u = amGet st0.teamOf u ∧
      amGet (l.foldl seedStep st0).source u = amGet st0.source u ∧
      amGet (l.foldl seedStep st0).conf u = amGet st0.conf u := by
  intro l
  induction l with
  | nil => intro _ st0; exact ⟨rfl, rfl, rfl⟩
  | cons p rest ih =>
    intro hu st0
    by_cases hval : p.2 = "Penguin" ∨ p.2 = "Reindeer"
    · have hne : p.1 ≠ u := by
        intro h
        apply hu
        subst h
        exact List.mem_map.mpr ⟨p, List.mem_filter.mpr ⟨List.mem_cons_self p rest, by
          simpa using hval⟩, rfl⟩
      have hrest : u ∉ (rest.filter (fun p =>
          decide (p.2 = "Penguin" ∨ p.2 = "Reindeer"))).map Prod.fst := by
        intro h
        apply hu
        rcases List.mem_map.mp h with ⟨q, hq, rfl⟩
        exact List.mem_map.mpr ⟨q, List.mem_filter.mpr
          ⟨List.mem_cons_of_mem p (List.mem_filter.mp hq).1, (List.mem_filter.mp hq).2⟩, rfl⟩
      rcases ih hrest (seedStep st0 p) with ⟨h1, h2, h3⟩
      rcases @seedStep_lookup_ne st0 _ _ hne with ⟨g1, g2, g3⟩
      exact ⟨by rw [List.foldl_cons, h1, g1], by rw [List.foldl_cons, h2, g2],
        by rw [List.foldl_cons, h3, g3]⟩
    · have hrest : u ∉ (rest.filter (fun p =>
          decide (p.2 = "Penguin" ∨ p.2 = "Reindeer"))).map Prod.fst := by
        intro h
        apply hu
        rcases List.mem_map.mp h with ⟨q, hq, rfl⟩
        exact List.mem_map.mpr ⟨q, List.mem_filter.mpr
          ⟨List.mem_cons_of_mem p (List.mem_filter.mp hq).1, (List.mem_filter.mp hq).2⟩, rfl⟩
      have hstep : seedStep st0 p = st0 := by
        unfold seedStep
        rw [if_neg hval]
      rw [List.foldl_cons, hstep]
      exact ih hrest st0

theorem seedFold_lookup {u t : String} :
    ∀ (l : List (String × String)), (l.map Prod.fst).Nodup → (u, t) ∈ l → TeamVal t →
    ∀ st0 : InferState,
      amGet (l.foldl seedStep st0).teamOf u = some t ∧
      amGet (l.foldl seedStep st0).source u = some "seeded" ∧
      amGet (l.foldl seedStep st0).conf u = some 1 := by
  intro l
  induction l with
  | nil => intro _ hmem; exact absurd hmem (List.not_mem_nil _)
  | cons p rest ih =>
    intro hnd hmem hval st0
    rw [List.map_cons, List.nodup_cons] at hnd
    rcases List.mem_cons.mp hmem with heq | hmem'
    · have hp : p = (u, t) := heq.symm
      subst hp
      have hustep : amGet (seedStep st0 (u, t)).teamOf u = some t ∧
          amGet (seedStep st0 (u, t)).source u = some "seeded" ∧
          amGet (seedStep st0 (u, t)).conf u = some 1 := by
        have hval' : (u, t).2 = "Penguin" ∨ (u, t).2 = "Reindeer" := hval
        unfold seedStep
        rw [if_pos hval']
        exact ⟨amGet_amSet_self _ _ _, amGet_amSet_self _ _ _, amGet_amSet_self _ _ _⟩
      have hrest : u ∉ (rest.filter (fun p =>
          decide (p.2 = "Penguin" ∨ p.2 = "Reindeer"))).map Prod.fst := by
        intro h
        rcases List.mem_map.mp h with ⟨q, hq, rfl⟩
        exact hnd.1 (List.mem_map.mpr ⟨q, (List.mem_filter.mp hq).1, rfl⟩)
      rcases seedFold_preserve rest hrest (seedStep st0 (u, t)) with ⟨h1, h2, h3⟩
      rw [List.foldl_cons]
      exact ⟨h1.trans hustep.1, h2.trans hustep.2.1, h3.trans hustep.2.2⟩
    · rw [List.foldl_cons]
      exact ih hnd.2 hmem' hval (seedStep st0 p)

theorem seedUsers_mem {seedTeams : List (String × String)} {p : String × String}
    (hp : p ∈ seedTeams) (hval : p.2 = "Penguin" ∨ p.2 = "Reindeer") :
    p.1 ∈ seedUsers seedTeams :=
  List.mem_map.mpr ⟨p, List.mem_filter.mpr ⟨hp, by simpa using hval⟩, rfl⟩

theorem not_mem_seedUsers_filter {seedTeams : List (String × String)} {u : String}
    (hu : u ∉ seedUsers seedTeams) :
    u ∉ (seedTeams.filter (fun p =>
      decide (p.2 = "Penguin" ∨ p.2 = "Reindeer"))).map Prod.fst := by
  intro h
  apply hu
  rcases List.mem_map.mp h with ⟨q, hq, rfl⟩
  exact List.mem_map.mpr ⟨q, by
    refine List.mem_filter.mpr ⟨(List.mem_filter.mp hq).1, ?_⟩
    exact (List.mem_filter.mp hq).2, rfl⟩

theorem seedInit_none {seedTeams : List (String × String)} {u : String}
    (hu : u ∉ seedUsers seedTeams) :
    amGet (seedInit seedTeams).teamOf u = none ∧
    amGet (seedInit seedTeams).source u = none ∧
    amGet (seedInit seedTeams).conf u = none ∧
    u ∉ (seedInit seedTeams).queue := by
  have h := seedFold_preserve seedTeams (not_mem_seedUsers_filter hu) ({} : InferState)
  have hteam : amGet (seedInit seedTeams).teamOf u = none := by
    show amGet (seedTeams.foldl seedStep ({} : InferState)).teamOf u = none
    rw [h.1]
    rfl
  refine ⟨hteam, ?_, ?_, ?_⟩
  · show amGet (seedTeams.foldl seedStep ({} : InferState)).source u = none
    rw [h.2.1]
    rfl
  · show amGet (seedTeams.foldl seedStep ({} : InferState)).conf u = none
    rw [h.2.2]
    rfl
  · intro hq
    have : u ∈ amKeys (seedTeams.foldl seedStep ({} : InferState)).teamOf := hq
    rcases amGet_isSome_of_mem_keys this with ⟨v, hv⟩
    rw [show amGet (seedTeams.foldl seedStep ({} : InferState)).teamOf u =
      amGet (seedInit seedTeams).teamOf u from rfl, hteam] at hv
    exact Option.noConfusion hv

theorem seedInit_lookup {seedTeams : List (String × String)} {u t : String}
    (hnd : (seedTeams.map Prod.fst).Nodup) (hmem : (u, t) ∈ seedTeams) (hval : TeamVal t) :
    amGet (seedInit seedTeams).teamOf u = some t ∧
    amGet (seedInit seedTeams).source u = some "seeded" ∧
    amGet (seedInit seedTeams).conf u = some 1 :=
  seedFold_lookup seedTeams hnd hmem hval ({} : InferState)

theorem seedInit_team_seedUsers {seedTeams : List (String × String)} {x t : String}
    (hx : amGet (seedInit seedTeams).teamOf x = some t) : x ∈ seedUsers seedTeams := by
  by_contra hmem
  rw [(seedInit_none hmem).1] at hx
  exact Option.noConfusion hx

theorem amGet_amSet_isSome {β : Type} {m : AssocMap β} {k x : String} {v : β}
    (h : x = k ∨ ∃ w, amGet m x = some w) : ∃ w, amGet (amSet m k v) x = some w := by
  by_cases hxe : x = k
  · subst hxe
    exact ⟨v, amGet_amSet_self _ _ _⟩
  · rcases h with h | ⟨w, hw⟩
    · exact absurd h hxe
    · exact ⟨w, by rw [amGet_amSet_ne _ _ hxe]; exact hw⟩

theorem wf_seedStep {st : InferState} {p : String × String} (hwf : WFState st) :
    WFState (seedStep st p) := by
  unfold seedStep
  split
  · next hval =>
    refine ⟨?_, ?_, ?_, ?_, ?_, ?_, ?_, ?_, ?_, ?_⟩
    · exact amSet_forall hwf.teamVals hval
    · exact amSet_forall hwf.srcVals (Or.inl rfl)
    · refine amSet_forall ?_ ?_
      · intro q hq
        exact amGet_amSet_isSome (Or.inr (hwf.srcTeam q hq))
      · exact amGet_amSet_isSome (Or.inl rfl)
    · refine amSet_forall ?_ ?_
      · intro q hq
        exact amGet_amSet_isSome (Or.inr (hwf.teamSrc q hq))
      · exact amGet_amSet_isSome (Or.inl rfl)
    · refine amSet_forall ?_ ?_
      · intro q hq hsd
        by_cases hqe : q.1 = p.1
        · rw [hqe, amGet_amSet_self]
        · rw [amGet_amSet_ne _ _ hqe]
          exact hwf.seededConf q hq hsd
      · intro _
        exact amGet_amSet_self _ _ _
    · refine amSet_forall ?_ ?_
      · intro q hq hinf
        exact hwf.infEvidence q hq hinf
      · intro hinf
        simp at hinf
    · intro u hu
      exact amGet_amSet_isSome (Or.inr (hwf.queueTeam u hu))
    · refine amSet_forall hwf.confVals ?_
      norm_num
    · refine amSet_forall ?_ ?_
      · intro q hq
        exact amGet_amSet_isSome (Or.inr (hwf.confTeam q hq))
      · exact amGet_amSet_isSome (Or.inl rfl)
    · exact hwf.evKeysNodup
  · exact hwf

theorem wf_empty : WFState ({} : InferState) := by
  refine ⟨?_, ?_, ?_, ?_, ?_, ?_, ?_, ?_, ?_, ?_⟩ <;>
    first
      | (intro p hp; simp at hp)
      | simp [amKeys]

theorem wf_seedInit (seedTeams : List (String × String)) : WFState (seedInit seedTeams) := by
  have hfold : WFState (seedTeams.foldl seedStep ({} : InferState)) :=
    foldl_inv _ wf_empty (fun s p _ hs => wf_seedStep hs)
  unfold seedInit
  exact ⟨hfold.teamVals, hfold.srcVals, hfold.srcTeam, hfold.teamSrc, hfold.seededConf,
    hfold.infEvidence, fun u hu => amGet_isSome_of_mem_keys hu, hfold.confVals,
    hfold.confTeam, hfold.evKeysNodup⟩

/-! ## Rational-arithmetic bridge lemmas and confidence bounds -/

theorem qofNat_eq (n : Nat) : qofNat n = (n : ℚ) := by
  rw [qofNat, Rat.divInt_eq_div]
  simp

theorem qadd_eq (a b : ℚ) : qadd a b = a + b := by
  have ha : ((a.den : ℚ)) ≠ 0 := Nat.cast_ne_zero.mpr (Rat.den_ne_zero a)
  have hb : ((b.den : ℚ)) ≠ 0 := Nat.cast_ne_zero.mpr (Rat.den_ne_zero b)
  rw [qadd, Rat.divInt_eq_div]
  conv_rhs => rw [← Rat.num_div_den a, ← Rat.num_div_den b]
  push_cast
  field_simp

theorem qsub_eq (a b : ℚ) : qsub a b = a - b := by
  have ha : ((a.den : ℚ)) ≠ 0 := Nat.cast_ne_zero.mpr (Rat.den_ne_zero a)
  have hb : ((b.den : ℚ)) ≠ 0 := Nat.cast_ne_zero.mpr (Rat.den_ne_zero b)
  rw [qsub, Rat.divInt_eq_div]
  conv_rhs => rw [← Rat.num_div_den a, ← Rat.num_div_den b]
  push_cast
  field_simp
  ring

theorem qmul_eq (a b : ℚ) : qmul a b = a * b := by
  have ha : ((a.den : ℚ)) ≠ 0 := Nat.cast_ne_zero.mpr (Rat.den_ne_zero a)
  have hb : ((b.den : ℚ)) ≠ 0 := Nat.cast_ne_zero.mpr (Rat.den_ne_zero b)
  rw [qmul, Rat.divInt_eq_div]
  conv_rhs => rw [← Rat.num_div_den a, ← Rat.num_div_den b]
  push_cast
  field_simp

theorem qdiv_eq (a b : ℚ) : qdiv a b = a / b := by
  by_cases hb0 : b = 0
  · subst hb0
    rw [qdiv, div_zero]
    simp
  · have hda : (a.den : ℤ) ≠ 0 := Int.natCast_ne_zero.mpr (Rat.den_ne_zero a)
    have hbn : b.num ≠ 0 := Rat.num_ne_zero.mpr hb0
    have hibv : b⁻¹ = Rat.divInt (b.den : Int) b.num := Rat.inv_def b
    rw [qdiv, div_eq_mul_inv, hibv]
    conv_rhs => rw [← Rat.num_divInt_den a]
    rw [Rat.divInt_mul_divInt _ _ hda hbn]

theorem qle_iff (a b : ℚ) : a.num * (b.den : Int) ≤ b.num * (a.den : Int) ↔ a ≤ b := by
  have hda : (0 : ℚ) < (a.den : ℚ) := by exact_mod_cast a.pos
  have hdb : (0 : ℚ) < (b.den : ℚ) := by exact_mod_cast b.pos
  conv_rhs => rw [← Rat.num_div_den a, ← Rat.num_div_den b]
  rw [div_le_div_iff₀ hda hdb]
  constructor
  · intro h
    exact_mod_cast h
  · intro h
    exact_mod_cast h

theorem qmin_eq (a b : ℚ) : qmin a b = min a b := by
  unfold qmin
  split
  · next h => exact (min_eq_left (qle_iff a b |>.mp h)).symm
  · next h =>
    have : b ≤ a := le_of_not_le (fun hab => h ((qle_iff a b).mpr hab))
    exact (min_eq_right this).symm

theorem qabs_eq (a : ℚ) : qabs a = |a| := by
  unfold qabs
  split
  · next h =>
    have hneg : a < 0 := by
      by_contra hge
      exact absurd (Rat.num_nonneg.mpr (le_of_not_lt hge)) (not_le.mpr h)
    rw [abs_of_neg hneg, Rat.divInt_eq_div]
    push_cast
    rw [neg_div, Rat.num_div_den]
  · next h =>
    have hpos : 0 ≤ a := Rat.num_nonneg.mp (le_of_not_lt h)
    rw [abs_of_nonneg hpos]

theorem ratFloor_eq (x : ℚ) : Rat.floor x = ⌊x⌋ := by
  rw [Rat.floor_def' x, Rat.floor_def]

theorem jsRound_eq (q : ℚ) : jsRound q = ⌊q + 1 / 2⌋ := by
  rw [jsRound, ratFloor_eq, qadd_eq, Rat.divInt_eq_div]
  norm_num

theorem round2_eq (q : ℚ) : round2 q = ((⌊q * 100 + 1 / 2⌋ : Int) : ℚ) / 100 := by
  rw [round2, Rat.divInt_eq_div, jsRound_eq, qmul_eq, qofNat_eq]
  norm_num

theorem round2_bounds {q : ℚ} (h0 : 0 ≤ q) (h1 : q ≤ 1) : 0 ≤ round2 q ∧ round2 q ≤ 1 := by
  rw [round2_eq]
  have hfl0 : (0 : ℤ) ≤ ⌊q * 100 + 1 / 2⌋ := Int.floor_nonneg.mpr (by linarith)
  have hfl1 : ⌊q * 100 + 1 / 2⌋ ≤ 100 := by
    rw [Int.floor_le_iff]
    push_cast
    linarith
  constructor
  · apply div_nonneg _ (by norm_num : (0 : ℚ) ≤ 100)
    exact_mod_cast hfl0
  · rw [div_le_one (by norm_num : (0 : ℚ) < 100)]
    exact_mod_cast hfl1

theorem confidenceOf_eq (ev : Tally) :
    confidenceOf ev =
      if ((ev.penguinVotes : ℚ) + (ev.reindeerVotes : ℚ)) = 0 then 0
      else
        round2 (|(ev.penguinVotes : ℚ) - (ev.reindeerVotes : ℚ)| /
            ((ev.penguinVotes : ℚ) + (ev.reindeerVotes : ℚ)) * (6 / 10) +
          min 1 (((ev.penguinVotes : ℚ) + (ev.reindeerVotes : ℚ)) / 20) * (4 / 10)) := by
  unfold confidenceOf
  simp only [qadd_eq, qsub_eq, qmul_eq, qdiv_eq, qmin_eq, qabs_eq, qofNat_eq,
    Rat.divInt_eq_div]
  norm_num

theorem confidenceOf_bounds (ev : Tally) : 0 ≤ confidenceOf ev ∧ confidenceOf ev ≤ 1 := by
  rw [confidenceOf_eq]
  split
  · norm_num
  · next htot =>
    have hp : (0 : ℚ) ≤ (ev.penguinVotes : ℚ) := Nat.cast_nonneg _
    have hr : (0 : ℚ) ≤ (ev.reindeerVotes : ℚ) := Nat.cast_nonneg _
    have htotpos : (0 : ℚ) < (ev.penguinVotes : ℚ) + (ev.reindeerVotes : ℚ) :=
      lt_of_le_of_ne (by linarith) (Ne.symm htot)
    have habs : |(ev.penguinVotes : ℚ) - (ev.reindeerVotes : ℚ)| ≤
        (ev.penguinVotes : ℚ) + (ev.reindeerVotes : ℚ) :=
      abs_le.mpr ⟨by linarith, by linarith⟩
    have hmr0 : (0 : ℚ) ≤ |(ev.penguinVotes : ℚ) - (ev.reindeerVotes : ℚ)| /
        ((ev.penguinVotes : ℚ) + (ev.reindeerVotes : ℚ)) :=
      div_nonneg (abs_nonneg _) (le_of_lt htotpos)
    have hmr1 : |(ev.penguinVotes : ℚ) - (ev.reindeerVotes : ℚ)| /
        ((ev.penguinVotes : ℚ) + (ev.reindeerVotes : ℚ)) ≤ 1 :=
      (div_le_one htotpos).mpr habs
    have heb0 : (0 : ℚ) ≤ min 1 (((ev.penguinVotes : ℚ) + (ev.reindeerVotes : ℚ)) / 20) :=
      le_min (by norm_num) (by positivity)
    have heb1 : min 1 (((ev.penguinVotes : ℚ) + (ev.reindeerVotes : ℚ)) / 20) ≤ 1 :=
      min_le_left _ _
    refine round2_bounds ?_ ?_
    · have := mul_nonneg hmr0 (by norm_num : (0 : ℚ) ≤ 6 / 10)
      have := mul_nonneg heb0 (by norm_num : (0 : ℚ) ≤ 4 / 10)
      linarith
    · have h06 : |(ev.penguinVotes : ℚ) - (ev.reindeerVotes : ℚ)| /
          ((ev.penguinVotes : ℚ) + (ev.reindeerVotes : ℚ)) * (6 / 10) ≤ 6 / 10 := by
        nlinarith
      have h04 : min 1 (((ev.penguinVotes : ℚ) + (ev.reindeerVotes : ℚ)) / 20) * (4 / 10) ≤
          4 / 10 := by
        nlinarith
      linarith

/-! ## Pass lemmas -/

theorem confPass_teamOf (st : InferState) : (confPass st).teamOf = st.teamOf := rfl

theorem confPass_source (st : InferState) : (confPass st).source = st.source := rfl

theorem confPass_evidence (st : InferState) : (confPass st).evidence = st.evidence := rfl

theorem confPass_conflicts (st : InferState) : (confPass st).conflicts = st.conflicts := rfl

theorem confStep_lookup_ne {st : InferState} {conf : AssocMap ℚ} {p : String × Tally}
    {x : String} (hne : p.1 ≠ x) : amGet (confStep st conf p) x = amGet conf x := by
  unfold confStep
  split
  · exact amGet_amSet_ne _ _ (fun h => hne h.symm)
  · rfl

theorem confFold_preserve {st : InferState} {x : String} :
    ∀ (l : List (String × Tally)), x ∉ amKeys l → ∀ conf0 : AssocMap ℚ,
      amGet (l.foldl (confStep st) conf0) x = amGet conf0 x := by
  intro l
  induction l with
  | nil => intro _ conf0; rfl
  | cons p rest ih =>
    intro hx conf0
    have hne : p.1 ≠ x := by
      intro h
      exact hx (List.mem_map.mpr ⟨p, List.mem_cons_self p rest, h⟩)
    have hrest : x ∉ amKeys rest := by
      intro h
      rcases List.mem_map.mp h with ⟨q, hq, rfl⟩
      exact hx (List.mem_map.mpr ⟨q, List.mem_cons_of_mem p hq, rfl⟩)
    rw [List.foldl_cons, ih hrest, confStep_lookup_ne hne]

theorem confFold_not_inferred {st : InferState} {x : String}
    (hx : amGet st.source x ≠ some "inferred") :
    ∀ (l : List (String × Tally)) (conf0 : AssocMap ℚ),
      amGet (l.foldl (confStep st) conf0) x = amGet conf0 x := by
  intro l
  induction l with
  | nil => intro conf0; rfl
  | cons p rest ih =>
    intro conf0
    rw [List.foldl_cons, ih]
    unfold confStep
    split
    · next hsrc =>
      have hne : p.1 ≠ x := by
        intro h
        rw [h] at hsrc
        exact hx hsrc
      exact amGet_amSet_ne _ _ (fun h => hne h.symm)
    · rfl

theorem confFold_inferred {st : InferState} {x : String} {tal : Tally}
    (hsrc : amGet st.source x = some "inferred") :
    ∀ (l : List (String × Tally)), (amKeys l).Nodup → (x, tal) ∈ l →
    ∀ conf0 : AssocMap ℚ,
      amGet (l.foldl (confStep st) conf0) x = some (confidenceOf tal) := by
  intro l
  induction l with
  | nil => intro _ hmem; exact absurd hmem (List.not_mem_nil _)
  | cons p rest ih =>
    intro hnd hmem conf0
    rw [show amKeys (p :: rest) = p.1 :: amKeys rest from rfl, List.nodup_cons] at hnd
    rcases List.mem_cons.mp hmem with heq | hmem'
    · have hp : p = (x, tal) := heq.symm
      subst hp
      have hrest : x ∉ amKeys rest := hnd.1
      rw [List.foldl_cons, confFold_preserve rest hrest]
      unfold confStep
      rw [if_pos hsrc, amGet_amSet_self]
    · rw [List.foldl_cons]
      exact ih hnd.2 hmem' (confStep st conf0 p)

theorem confPass_conf_inferred {st : InferState} {x : String} {tal : Tally}
    (hnd : (amKeys st.evidence).Nodup) (htal : amGet st.evidence x = some tal)
    (hsrc : amGet st.source x = some "inferred") :
    amGet (confPass st).conf x = some (confidenceOf tal) :=
  confFold_inferred hsrc st.evidence hnd (amGet_mem htal) st.conf

theorem confPass_conf_not_inferred {st : InferState} {x : String}
    (hsrc : amGet st.source x ≠ some "inferred") :
    amGet (confPass st).conf x = amGet st.conf x :=
  confFold_not_inferred hsrc st.evidence st.conf

theorem confPass_confVals {st : InferState}
    (h : ∀ p ∈ st.conf, 0 ≤ p.2 ∧ p.2 ≤ 1) :
    ∀ p ∈ (confPass st).conf, 0 ≤ p.2 ∧ p.2 ≤ 1 := by
  show ∀ p ∈ st.evidence.foldl (confStep st) st.conf, 0 ≤ p.2 ∧ p.2 ≤ 1
  refine foldl_inv (fun (conf : AssocMap ℚ) => ∀ p ∈ conf, 0 ≤ p.2 ∧ p.2 ≤ 1) h ?_
  intro conf p _ hc
  unfold confStep
  split
  · exact amSet_forall hc (confidenceOf_bounds p.2)
  · exact hc

theorem conflictPass_teamOf (st : InferState) : (conflictPass st).teamOf = st.teamOf := rfl

theorem conflictPass_source (st : InferState) : (conflictPass st).source = st.source := rfl

theorem conflictPass_conf (st : InferState) : (conflictPass st).conf = st.conf := rfl

theorem conflictPass_evidence (st : InferState) : (conflictPass st).evidence = st.evidence := rfl

theorem foldl_append_flatten {α β : Type} (f : α → List β) :
    ∀ (l : List α) (cs0 : List β),
      l.foldl (fun cs p => cs ++ f p) cs0 = cs0 ++ (l.map f).flatten := by
  intro l
  induction l with
  | nil => intro cs0; simp
  | cons p rest ih =>
    intro cs0
    rw [List.foldl_cons, ih, List.map_cons, List.flatten_cons, List.append_assoc]

theorem conflictPass_conflicts_eq (st : InferState) :
    (conflictPass st).conflicts =
      st.conflicts ++ (st.evidence.map (selfConflictsFor st)).flatten := by
  show st.evidence.foldl (fun cs p => cs ++ selfConflictsFor st p) st.conflicts = _
  exact foldl_append_flatten _ st.evidence st.conflicts

theorem mem_conflictPass_iff {st : InferState} {c : Conflict} :
    c ∈ (conflictPass st).conflicts ↔
      c ∈ st.conflicts ∨ ∃ p ∈ st.evidence, c ∈ selfConflictsFor st p := by
  rw [conflictPass_conflicts_eq, List.mem_append, List.mem_flatten]
  constructor
  · rintro (h | ⟨l, hl, hc⟩)
    · exact Or.inl h
    · rcases List.mem_map.mp hl with ⟨p, hp, rfl⟩
      exact Or.inr ⟨p, hp, hc⟩
  · rintro (h | ⟨p, hp, hc⟩)
    · exact Or.inl h
    · exact Or.inr ⟨selfConflictsFor st p, List.mem_map.mpr ⟨p, hp, rfl⟩, hc⟩

theorem mem_selfConflictsFor_iff {st : InferState} {p : String × Tally} {c : Conflict} :
    c ∈ selfConflictsFor st p ↔
      amGet st.source p.1 = some "inferred" ∧
      ((amGet st.teamOf p.1 = some "Penguin" ∧ p.2.reindeerVotes > p.2.penguinVotes * 2 ∧
          c = selfConflict p.1 "Penguin" "Reindeer" p.2.reindeerVotes) ∨
        (amGet st.teamOf p.1 = some "Reindeer" ∧ p.2.penguinVotes > p.2.reindeerVotes * 2 ∧
          c = selfConflict p.1 "Reindeer" "Penguin" p.2.penguinVotes)) := by
  unfold selfConflictsFor
  split
  · next hsrc =>
    dsimp only
    split
    · next hcond =>
      simp only [List.mem_singleton]
      constructor
      · intro h
        exact ⟨hsrc, Or.inl ⟨hcond.1, hcond.2, h⟩⟩
      · rintro ⟨_, ⟨_, _, h⟩ | ⟨hteam, _, _⟩⟩
        · exact h
        · rw [hcond.1] at hteam
          simp at hteam
    · next hcond1 =>
      split
      · next hcond2 =>
        simp only [List.mem_singleton]
        constructor
        · intro h
          exact ⟨hsrc, Or.inr ⟨hcond2.1, hcond2.2, h⟩⟩
        · rintro ⟨_, ⟨hteam, hvotes, _⟩ | ⟨_, _, h⟩⟩
          · rw [hcond2.1] at hteam
            simp at hteam
          · exact h
      · next hcond2 =>
        simp only [List.not_mem_nil, false_iff]
        rintro ⟨_, ⟨hteam, hvotes, _⟩ | ⟨hteam, hvotes, _⟩⟩
        · exact hcond1 ⟨hteam, hvotes⟩
        · exact hcond2 ⟨hteam, hvotes⟩
  · next hsrc =>
    simp only [List.not_mem_nil, false_iff]
    rintro ⟨h, _⟩
    exact hsrc h

theorem unknownStep_preserve {st : InferState} {u x : String} {t : String}
    (hx : amGet st.teamOf x = some t) :
    amGet (unknownStep st u).teamOf x = some t ∧
    amGet (unknownStep st u).source x = amGet st.source x ∧
    amGet (unknownStep st u).conf x = amGet st.conf x := by
  unfold unknownStep
  split
  · next hnone =>
    have hne : x ≠ u := by
      intro h
      rw [h] at hx
      rw [Option.isNone_iff_eq_none.mp hnone] at hx
      exact Option.noConfusion hx
    exact ⟨by rw [amGet_amSet_ne _ _ hne]; exact hx,
      amGet_amSet_ne _ _ hne, amGet_amSet_ne _ _ hne⟩
  · exact ⟨hx, rfl, rfl⟩

theorem unknownPass_preserve {st : InferState} {x t : String}
    (hx : amGet st.teamOf x = some t) :
    ∀ users : List String,
      amGet (unknownPass users st).teamOf x = some t ∧
      amGet (unknownPass users st).source x = amGet st.source x ∧
      amGet (unknownPass users st).conf x = amGet st.conf x := by
  intro users
  unfold unknownPass
  refine foldl_inv (fun (s : InferState) => amGet s.teamOf x = some t ∧
    amGet s.source x = amGet st.source x ∧ amGet s.conf x = amGet st.conf x)
    ⟨hx, rfl, rfl⟩ ?_
  intro s u _ hs
  rcases @unknownStep_preserve _ u _ _ hs.1 with ⟨h1, h2, h3⟩
  exact ⟨h1, h2.trans hs.2.1, h3.trans hs.2.2⟩

theorem unknownStep_lookup_none {st : InferState} {u x : String} (hne : x ≠ u) :
    amGet (unknownStep st u).teamOf x = amGet st.teamOf x ∧
    amGet (unknownStep st u).source x = amGet st.source x ∧
    amGet (unknownStep st u).conf x = amGet st.conf x := by
  unfold unknownStep
  split
  · exact ⟨amGet_amSet_ne _ _ hne, amGet_amSet_ne _ _ hne, amGet_amSet_ne _ _ hne⟩
  · exact ⟨rfl, rfl, rfl⟩

theorem unknownPass_sets {x : String} :
    ∀ (users : List String) (st : InferState), x ∈ users → amGet st.teamOf x = none →
      amGet (unknownPass users st).teamOf x = some "Unknown" ∧
      amGet (unknownPass users st).source x = some "unknown" ∧
      amGet (unknownPass users st).conf x = some 0 := by
  intro users
  induction users with
  | nil => intro st hmem; exact absurd hmem (List.not_mem_nil _)
  | cons u rest ih =>
    intro st hmem hnone
    by_cases hxe : x = u
    · subst hxe
      have hstep : amGet (unknownStep st x).teamOf x = some "Unknown" ∧
          amGet (unknownStep st x).source x = some "unknown" ∧
          amGet (unknownStep st x).conf x = some 0 := by
        unfold unknownStep
        rw [if_pos (Option.isNone_iff_eq_none.mpr hnone)]
        exact ⟨amGet_amSet_self _ _ _, amGet_amSet_self _ _ _, amGet_amSet_self _ _ _⟩
      have hpres := unknownPass_preserve hstep.1 rest
      show amGet (unknownPass rest (unknownStep st x)).teamOf x = some "Unknown" ∧ _ ∧ _
      exact ⟨hpres.1, hpres.2.1.trans hstep.2.1, hpres.2.2.trans hstep.2.2⟩
    · rcases List.mem_cons.mp hmem with heq | hmem'
      · exact absurd heq hxe
      · rcases @unknownStep_lookup_none st u _ hxe with ⟨h1, _, _⟩
        exact ih (unknownStep st u) hmem' (h1.trans hnone)

theorem unknownStep_source_back {st : InferState} {u x s0 : String}
    (hx : amGet (unknownStep st u).source x = some s0) :
    amGet st.source x = some s0 ∨ s0 = "unknown" := by
  revert hx
  unfold unknownStep
  split
  · by_cases hxe : x = u
    · subst hxe
      rw [amGet_amSet_self]
      intro h
      exact Or.inr (Option.some_injective _ h).symm
    · rw [amGet_amSet_ne _ _ hxe]
      exact Or.inl
  · exact Or.inl

theorem unknownPass_source_back {x s0 : String} :
    ∀ (users : List String) (st : InferState),
      amGet (unknownPass users st).source x = some s0 →
      amGet st.source x = some s0 ∨ s0 = "unknown" := by
  intro users
  induction users with
  | nil => intro st hx; exact Or.inl hx
  | cons u rest ih =>
    intro st hx
    rcases ih (unknownStep st u) hx with h | h
    · exact unknownStep_source_back h
    · exact Or.inr h

theorem unknownPass_team_entry {x : String} :
    ∀ (users : List String) (st : InferState), x ∈ users →
      ∃ t, amGet (unknownPass users st).teamOf x = some t := by
  intro users st hmem
  cases hget : amGet st.teamOf x with
  | none =>
    exact ⟨"Unknown", (unknownPass_sets users st hmem hget).1⟩
  | some t =>
    exact ⟨t, (unknownPass_preserve hget users).1⟩

theorem unknownPass_confVals {st : InferState}
    (h : ∀ p ∈ st.conf, 0 ≤ p.2 ∧ p.2 ≤ 1) :
    ∀ (users : List String), ∀ p ∈ (unknownPass users st).conf, 0 ≤ p.2 ∧ p.2 ≤ 1 := by
  intro users
  unfold unknownPass
  refine foldl_inv (fun (s : InferState) => ∀ p ∈ s.conf, 0 ≤ p.2 ∧ p.2 ≤ 1) h ?_
  intro s u _ hs
  unfold unknownStep
  split
  · exact amSet_forall hs (by norm_num)
  · exact hs

/-! ## Reachability -/

theorem visitEdge_reach {adj : Adj} {seeds : List String} {u ut : String}
    {st : InferState} {vw : String × Nat} (hv : Reachable adj seeds vw.1)
    (h : (∀ x t, amGet st.teamOf x = some t → Reachable adj seeds x) ∧
      (∀ q ∈ st.queue, Reachable adj seeds q)) :
    (∀ x t, amGet (visitEdge u ut st vw).teamOf x = some t → Reachable adj seeds x) ∧
    (∀ q ∈ (visitEdge u ut st vw).queue, Reachable adj seeds q) := by
  constructor
  · intro x t hx
    rcases visitEdge_team_back hx with h' | ⟨hxe, _, _⟩
    · exact h.1 x t h'
    · rw [hxe]
      exact hv
  · intro q hq
    rcases visitEdge_cases u ut st vw with
      ⟨_, _, _, _, _, _, hqv⟩ | ⟨ct, _, _, heq⟩ | ⟨_, _, heq⟩ | ⟨_, _, heq⟩
    · rcases hqv with ⟨_, hq', _⟩ | ⟨_, hq', _⟩
      · rw [hq'] at hq
        exact h.2 q hq
      · rw [hq'] at hq
        rcases List.mem_append.mp hq with hmem | hmem
        · exact h.2 q hmem
        · rw [List.mem_singleton.mp hmem]
          exact hv
    all_goals rw [heq] at hq; exact h.2 q hq

theorem bfsStep_reach {adj : Adj} {seeds : List String} {st : InferState}
    (h : (∀ x t, amGet st.teamOf x = some t → Reachable adj seeds x) ∧
      (∀ q ∈ st.queue, Reachable adj seeds q)) :
    (∀ x t, amGet (bfsStep adj st).teamOf x = some t → Reachable adj seeds x) ∧
    (∀ q ∈ (bfsStep adj st).queue, Reachable adj seeds q) := by
  unfold bfsStep
  cases hq : st.queue with
  | nil => exact h
  | cons u rest =>
    have hu : Reachable adj seeds u := h.2 u (by rw [hq]; exact List.mem_cons_self u rest)
    have hneigh : ∀ vw ∈ (amGet adj u).getD [], Reachable adj seeds vw.1 := by
      intro vw hvw
      cases hadj : amGet adj u with
      | none => rw [hadj] at hvw; simp at hvw
      | some m =>
        rw [hadj] at hvw
        exact Reachable.step m vw.2 hu hadj hvw
    refine foldl_inv (fun (s : InferState) =>
      (∀ x t, amGet s.teamOf x = some t → Reachable adj seeds x) ∧
      (∀ q ∈ s.queue, Reachable adj seeds q)) ?_ ?_
    · exact ⟨h.1, fun q hq' => h.2 q (by rw [hq]; exact List.mem_cons_of_mem u hq')⟩
    · intro s vw hvw hs
      exact visitEdge_reach (hneigh vw hvw) hs

theorem bfsFuel_reach {adj : Adj} {seeds : List String} :
    ∀ (fuel : Nat) (st : InferState),
      ((∀ x t, amGet st.teamOf x = some t → Reachable adj seeds x) ∧
        (∀ q ∈ st.queue, Reachable adj seeds q)) →
      (∀ x t, amGet (bfsFuel adj fuel st).teamOf x = some t → Reachable adj seeds x) := by
  intro fuel
  induction fuel with
  | zero => intro st h; exact h.1
  | succ n ih =>
    intro st h
    unfold bfsFuel
    cases hq : st.queue with
    | nil => exact h.1
    | cons u rest => exact ih _ (bfsStep_reach h)

theorem bfsStateOf_reach {events : List HitEvent} {seedTeams : List (String × String)}
    {x t : String} (hx : amGet (bfsStateOf events seedTeams).teamOf x = some t) :
    Reachable (buildAdj events) (seedUsers seedTeams) x := by
  refine bfsFuel_reach _ (seedInit seedTeams) ⟨?_, ?_⟩ x t hx
  · intro y s hy
    exact Reachable.seed (seedInit_team_seedUsers hy)
  · intro q hq
    rcases @amGet_isSome_of_mem_keys _ ((seedInit seedTeams).teamOf) _ hq with ⟨v, hv⟩
    exact Reachable.seed (seedInit_team_seedUsers hv)

/-! ## The BFS queue drains -/

theorem filter_length_le {α : Type} {p q : α → Bool} :
    ∀ l : List α, (∀ x ∈ l, q x = true → p x = true) →
      (l.filter q).length ≤ (l.filter p).length := by
  intro l
  induction l with
  | nil => intro _; exact Nat.le_refl _
  | cons y ys ih =>
    intro h
    have hys := ih (fun x hx => h x (List.mem_cons_of_mem y hx))
    by_cases hq : q y = true
    · rw [List.filter_cons_of_pos hq, List.filter_cons_of_pos (h y (List.mem_cons_self y ys) hq)]
      simpa using hys
    · rw [List.filter_cons_of_neg (by simpa using hq)]
      refine hys.trans ?_
      by_cases hp : p y = true
      · rw [List.filter_cons_of_pos hp]
        simp
      · rw [List.filter_cons_of_neg (by simpa using hp)]

theorem filter_length_lt {α : Type} {p q : α → Bool} {x : α} :
    ∀ {l : List α}, (∀ y ∈ l, q y = true → p y = true) → x ∈ l → p x = true → q x = false →
      (l.filter q).length < (l.filter p).length := by
  intro l
  induction l with
  | nil => intro _ hx; exact absurd hx (List.not_mem_nil _)
  | cons y ys ih =>
    intro h hx hpx hqx
    rcases List.mem_cons.mp hx with rfl | hx'
    · rw [List.filter_cons_of_pos hpx, List.filter_cons_of_neg (by simp [hqx])]
      have := @filter_length_le _ p q ys (fun z hz => h z (List.mem_cons_of_mem x hz))
      simpa using Nat.lt_succ_of_le this
    · by_cases hqy : q y = true
      · rw [List.filter_cons_of_pos hqy, List.filter_cons_of_pos (h y (List.mem_cons_self y ys) hqy)]
        simpa using ih (fun z hz => h z (List.mem_cons_of_mem y hz)) hx' hpx hqx
      · rw [List.filter_cons_of_neg (by simpa using hqy)]
        refine (ih (fun z hz => h z (List.mem_cons_of_mem y hz)) hx' hpx hqx).trans_le ?_
        by_cases hpy : p y = true
        · rw [List.filter_cons_of_pos hpy]
          simp
        · rw [List.filter_cons_of_neg (by simpa using hpy)]

theorem visitEdge_measure {adj : Adj} {u ut : String} {st : InferState} {vw : String × Nat}
    (hvk : vw.1 ∈ amKeys adj) :
    bfsMeasure adj (visitEdge u ut st vw) ≤ bfsMeasure adj st := by
  rcases visitEdge_cases u ut st vw with
    ⟨_, _, _, _, _, _, hqv⟩ | ⟨ct, _, _, heq⟩ | ⟨_, _, heq⟩ | ⟨_, _, heq⟩
  · rcases hqv with ⟨_, hq', hv'⟩ | ⟨hvis, hq', hv'⟩
    · unfold bfsMeasure
      rw [hq', hv']
    · unfold bfsMeasure
      rw [hq', hv']
      have hlt : (((amKeys adj).filter
          (fun k => !((st.visited ++ [vw.1]).contains k))).length <
          ((amKeys adj).filter (fun k => !(st.visited.contains k))).length) := by
        refine filter_length_lt ?_ hvk ?_ ?_
        · intro z _ hz
          have hz' : z ∉ st.visited ++ [vw.1] := by simpa using hz
          have : z ∉ st.visited := fun hc => hz' (List.mem_append.mpr (Or.inl hc))
          simpa using this
        · have : vw.1 ∉ st.visited := by simpa using hvis
          simpa using this
        · simp
      rw [List.length_append]
      simp only [List.length_singleton]
      omega
  all_goals unfold bfsMeasure; rw [heq]

theorem bfsStep_measure {adj : Adj} {st : InferState} {u : String} {rest : List String}
    (hc : AdjClosed adj) (hq : st.queue = u :: rest) :
    bfsMeasure adj (bfsStep adj st) < bfsMeasure adj st := by
  have hneigh : ∀ vw ∈ (amGet adj u).getD [], vw.1 ∈ amKeys adj := by
    intro vw hvw
    cases hadj : amGet adj u with
    | none => rw [hadj] at hvw; simp at hvw
    | some m =>
      rw [hadj] at hvw
      exact hc _ (amGet_mem hadj) vw hvw
  have hfold : bfsMeasure adj (bfsStep adj st) ≤ bfsMeasure adj { st with queue := rest } := by
    unfold bfsStep
    rw [hq]
    refine foldl_inv (fun (s : InferState) =>
      bfsMeasure adj s ≤ bfsMeasure adj { st with queue := rest }) (Nat.le_refl _) ?_
    intro s vw hvw hs
    exact (visitEdge_measure (hneigh vw hvw)).trans hs
  refine hfold.trans_lt ?_
  unfold bfsMeasure
  rw [hq]
  simp only [List.length_cons]
  omega

theorem bfsFuel_drains {adj : Adj} (hc : AdjClosed adj) :
    ∀ (fuel : Nat) (st : InferState), bfsMeasure adj st ≤ fuel →
      (bfsFuel adj fuel st).queue = [] := by
  intro fuel
  induction fuel with
  | zero =>
    intro st h
    have : st.queue.length = 0 := by
      unfold bfsMeasure at h
      omega
    have hq : st.queue = [] := List.length_eq_zero.mp this
    show (bfsFuel adj 0 st).queue = []
    unfold bfsFuel
    exact hq
  | succ n ih =>
    intro st h
    unfold bfsFuel
    cases hq : st.queue with
    | nil => exact hq
    | cons u rest =>
      refine ih _ ?_
      have := bfsStep_measure hc hq
      omega

theorem bfsStateOf_drained (events : List HitEvent) (seedTeams : List (String × String)) :
    (bfsStateOf events seedTeams).queue = [] := by
  unfold bfsStateOf
  refine bfsFuel_drains (buildAdj_closed events) _ _ ?_
  unfold bfsMeasure
  have h1 : ((amKeys (buildAdj events)).filter
      (fun k => !((seedInit seedTeams).visited.contains k))).length ≤
      (buildAdj events).length := by
    refine (List.length_filter_le _ _).trans ?_
    unfold amKeys
    rw [List.length_map]
  omega

/-! ## Remaining helpers for the inference claims -/

theorem nodup_keys_unique {β : Type} {a b : β} {u : String} :
    ∀ {l : List (String × β)}, (l.map Prod.fst).Nodup → (u, a) ∈ l → (u, b) ∈ l → a = b := by
  intro l
  induction l with
  | nil => intro _ ha; exact absurd ha (List.not_mem_nil _)
  | cons p rest ih =>
    intro hnd ha hb
    rw [List.map_cons, List.nodup_cons] at hnd
    rcases List.mem_cons.mp ha with ha' | ha' <;> rcases List.mem_cons.mp hb with hb' | hb'
    · rw [← ha'] at hb'
      exact congrArg Prod.snd hb'.symm
    · exact absurd (List.mem_map.mpr ⟨(u, b), hb', by rw [← ha']⟩) hnd.1
    · exact absurd (List.mem_map.mpr ⟨(u, a), ha', by rw [← hb']⟩) hnd.1
    · exact ih hnd.2 ha' hb'

theorem invalid_seed_not_seedUser {seedTeams : List (String × String)} {u t : String}
    (hnd : (seedTeams.map Prod.fst).Nodup) (hmem : (u, t) ∈ seedTeams)
    (hinv : ¬ TeamVal t) : u ∉ seedUsers seedTeams := by
  intro hu
  rcases List.mem_map.mp hu with ⟨q, hq, hq1⟩
  have hq' := List.mem_filter.mp hq
  have : q.2 = t := by
    have heq : (u, q.2) ∈ seedTeams := by
      have : q = (u, q.2) := Prod.ext hq1 rfl
      rw [← this]
      exact hq'.1
    exact nodup_keys_unique hnd heq hmem
  apply hinv
  rw [← this]
  simpa using hq'.2

theorem unknownPass_not_mem_none {x : String} :
    ∀ (users : List String) (st : InferState), x ∉ users → amGet st.teamOf x = none →
      amGet (unknownPass users st).teamOf x = none := by
  intro users
  induction users with
  | nil => intro st _ h; exact h
  | cons u rest ih =>
    intro st hx hnone
    have hne : x ≠ u := fun h => hx (h ▸ List.mem_cons_self u rest)
    have hstep : amGet (unknownStep st u).teamOf x = none :=
      ((unknownStep_lookup_none hne).1).trans hnone
    exact ih (unknownStep st u) (fun h => hx (List.mem_cons_of_mem u h)) hstep

/-! ## Battle sweep lemmas -/

theorem sweepFrom_props (g : Int) (rest : List TEvent) : ∀ (prev : Option Int)
    (acc : List TEvent)
    (e0 : TEvent), acc.head? = some e0 → e0.t = prev → List.Chain' (gapLE g) acc.reverse →
    sweepFrom g prev acc rest ≠ [] ∧
    (sweepFrom g prev acc rest).flatten = acc.reverse ++ rest ∧
    (∀ c ∈ sweepFrom g prev acc rest, c ≠ []) ∧
    (∀ c ∈ sweepFrom g prev acc rest, List.Chain' (gapLE g) c) ∧
    List.Chain' (boundaryGT g) (sweepFrom g prev acc rest) ∧
    (sweepFrom g prev acc rest).head?.bind List.head? = acc.reverse.head? := by
  induction rest with
  | nil =>
    intro prev acc e0 hh hp hch
    have hacc : acc ≠ [] := by intro h; rw [h] at hh; simp at hh
    have haccr : acc.reverse ≠ [] := by simpa using hacc
    refine ⟨by simp [sweepFrom], by simp [sweepFrom], ?_, ?_, by simp [sweepFrom],
      by simp [sweepFrom]⟩
    · intro c hc
      simp only [sweepFrom, List.mem_singleton] at hc
      rw [hc]
      exact haccr
    · intro c hc
      simp only [sweepFrom, List.mem_singleton] at hc
      rw [hc]
      exact hch
  | cons e rest ih =>
    intro prev acc e0 hh hp hch
    have hacc : acc ≠ [] := by intro h; rw [h] at hh; simp at hh
    have haccr : acc.reverse ≠ [] := by simpa using hacc
    by_cases hgap : gapOkB g prev e.t = true
    · have hch' : List.Chain' (gapLE g) (e :: acc).reverse := by
        rw [List.reverse_cons, List.chain'_append]
        refine ⟨hch, List.chain'_singleton e, ?_⟩
        intro x hx y hy
        rw [List.getLast?_reverse, hh] at hx
        have hx' : x = e0 := (by simpa using hx : e0 = x).symm
        have hy' : y = e := (by simpa using hy : e = y).symm
        rw [hx', hy']
        show gapOkB g e0.t e.t = true
        rw [hp]
        exact hgap
      have hres := ih e.t (e :: acc) e rfl rfl hch'
      have heq : sweepFrom g prev acc (e :: rest) = sweepFrom g e.t (e :: acc) rest := by
        simp [sweepFrom, hgap]
      rw [heq]
      refine ⟨hres.1, ?_, hres.2.2.1, hres.2.2.2.1, hres.2.2.2.2.1, ?_⟩
      · rw [hres.2.1, List.reverse_cons, List.append_assoc]
        simp
      · rw [hres.2.2.2.2.2, List.reverse_cons, List.head?_append_of_ne_nil _ haccr]
    · have hres := ih e.t [e] e rfl rfl (by simp)
      have heq : sweepFrom g prev acc (e :: rest) =
          acc.reverse :: sweepFrom g e.t [e] rest := by
        simp [sweepFrom, hgap]
      rw [heq]
      obtain ⟨hne, hflat, hcne, hcch, hbch, hhead⟩ := hres
      refine ⟨by simp, ?_, ?_, ?_, ?_, by simp⟩
      · rw [List.flatten_cons, hflat]
        simp
      · intro c hc
        rcases List.mem_cons.mp hc with rfl | hc'
        · exact haccr
        · exact hcne c hc'
      · intro c hc
        rcases List.mem_cons.mp hc with rfl | hc'
        · exact hch
        · exact hcch c hc'
      · rw [List.chain'_cons']
        refine ⟨?_, hbch⟩
        intro c2 hc2 x hx y hy
        have hc2' : (sweepFrom g e.t [e] rest).head? = some c2 := Option.mem_def.mp hc2
        have hce : c2.head? = some e := by
          have h1 := hhead
          rw [hc2'] at h1
          simpa using h1
        rw [List.getLast?_reverse, hh] at hx
        have hx' : x = e0 := (by simpa using hx : e0 = x).symm
        have hy' : y = e := (by rw [hce] at hy; simpa using hy : e = y).symm
        rw [hx', hy']
        show gapOkB g e0.t e.t = false
        rw [hp]
        simpa using hgap

theorem clustersOf_props (g : Int) (l : List TEvent) :
    (clustersOf g l).flatten = l ∧
    (∀ c ∈ clustersOf g l, c ≠ []) ∧
    (∀ c ∈ clustersOf g l, List.Chain' (gapLE g) c) ∧
    List.Chain' (boundaryGT g) (clustersOf g l) := by
  cases l with
  | nil => exact ⟨rfl, by simp [clustersOf], by simp [clustersOf], by simp [clustersOf]⟩
  | cons e rest =>
    have h := sweepFrom_props g rest e.t [e] e rfl rfl (by simp)
    have heq : clustersOf g (e :: rest) = sweepFrom g e.t [e] rest := rfl
    rw [heq]
    exact ⟨by simpa using h.2.1, h.2.2.1, h.2.2.2.1, h.2.2.2.2.1⟩

theorem mem_split_of_chain' (g : Int) :
    ∀ (cs : List (List TEvent)), (∀ c ∈ cs, c ≠ []) → List.Chain' (boundaryGT g) cs →
    ∀ c ∈ cs, ∃ pre post : List TEvent, cs.flatten = pre ++ (c ++ post) ∧
      (∀ x ∈ pre.getLast?, ∀ y ∈ c.head?, gapOkB g x.t y.t = false) ∧
      (∀ x ∈ c.getLast?, ∀ y ∈ post.head?, gapOkB g x.t y.t = false) := by
  intro cs
  induction cs with
  | nil =>
    intro _ _ c hc
    exact absurd hc (List.not_mem_nil c)
  | cons d cs ih =>
    intro hne hch c hc
    rcases List.mem_cons.mp hc with rfl | hc'
    · refine ⟨[], cs.flatten, by simp, by simp, ?_⟩
      intro x hx y hy
      cases cs with
      | nil => simp at hy
      | cons c2 cs' =>
        have hc2ne : c2 ≠ [] := hne c2 (by simp)
        have hb : boundaryGT g c c2 := (List.chain'_cons'.mp hch).1 c2 rfl
        have hhead : (c2 :: cs').flatten.head? = c2.head? := by
          rw [List.flatten_cons]
          exact List.head?_append_of_ne_nil _ hc2ne
        rw [hhead] at hy
        exact hb x hx y hy
    · have hch' := (List.chain'_cons'.mp hch).2
      obtain ⟨pre, post, hflat, hL, hR⟩ :=
        ih (fun c h => hne c (List.mem_cons_of_mem _ h)) hch' c hc'
      refine ⟨d ++ pre, post, ?_, ?_, hR⟩
      · rw [List.flatten_cons, hflat, List.append_assoc]
      · intro x hx y hy
        cases pre with
        | nil =>
          rw [List.append_nil] at hx
          have hcne : c ≠ [] := hne c hc
          cases cs with
          | nil => exact absurd hc' (List.not_mem_nil c)
          | cons c2 cs' =>
            have hc2ne : c2 ≠ [] := hne c2 (by simp)
            have hb : boundaryGT g d c2 := (List.chain'_cons'.mp hch).1 c2 rfl
            have h1 : (c2 :: cs').flatten.head? = c2.head? := by
              rw [List.flatten_cons]
              exact List.head?_append_of_ne_nil _ hc2ne
            have h2 : (c2 :: cs').flatten.head? = c.head? := by
              rw [hflat, List.nil_append]
              exact List.head?_append_of_ne_nil _ hcne
            rw [h1] at h2
            rw [← h2] at hy
            exact hb x hx y hy
        | cons p ps =>
          rw [List.getLast?_append_of_ne_nil _ (by simp : p :: ps ≠ [])] at hx
          exact hL x hx y hy

theorem foldl_append_mem {α β : Type} (f : α → List β) (l : List α) :
    ∀ (init : List β) (b : β),
      b ∈ l.foldl (fun acc r => acc ++ f r) init ↔ b ∈ init ∨ ∃ r ∈ l, b ∈ f r := by
  induction l with
  | nil => intro init b; simp
  | cons a l ih =>
    intro init b
    rw [List.foldl_cons, ih]
    constructor
    · rintro (h | ⟨r, hr, hb⟩)
      · rcases List.mem_append.mp h with h | h
        · exact Or.inl h
        · exact Or.inr ⟨a, List.mem_cons_self a l, h⟩
      · exact Or.inr ⟨r, List.mem_cons_of_mem a hr, hb⟩
    · rintro (h | ⟨r, hr, hb⟩)
      · exact Or.inl (List.mem_append.mpr (Or.inl h))
      · rcases List.mem_cons.mp hr with rfl | hr'
        · exact Or.inl (List.mem_append.mpr (Or.inr hb))
        · exact Or.inr ⟨r, hr', hb⟩

theorem numberFrom_mem {α : Type} : ∀ (xs : List α) (i j : Nat) (x : α),
    (j, x) ∈ numberFrom i xs → x ∈ xs := by
  intro xs
  induction xs with
  | nil => intro i j x h; simp [numberFrom] at h
  | cons a xs ih =>
    intro i j x h
    simp only [numberFrom, List.mem_cons] at h
    rcases h with h' | h'
    · have hx : x = a := (Prod.ext_iff.mp h').2
      rw [hx]
      exact List.mem_cons_self a xs
    · exact List.mem_cons_of_mem a (ih (i + 1) j x h')

theorem numberFrom_map_snd {α β : Type} (f : α → β) :
    ∀ (xs : List α) (i : Nat), (numberFrom i xs).map (fun ic => f ic.2) = xs.map f := by
  intro xs
  induction xs with
  | nil => intro i; rfl
  | cons a xs ih =>
    intro i
    simp only [numberFrom, List.map_cons]
    rw [ih]

theorem mem_battlesOfRoom {events : List HitEvent} {room : String} {b : Battle} :
    b ∈ battlesOfRoom events room ↔
      ∃ jc ∈ numberFrom 1 ((clustersOf (BATTLE_MAX_GAP_SECONDS * 1000)
          (timedSorted events room)).filter (fun c => decide (BATTLE_MIN_HITS ≤ c.length))),
        b = mkBattle room jc.1 jc.2 := by
  simp only [battlesOfRoom]
  rw [List.mem_map]
  constructor
  · rintro ⟨jc, hjc, rfl⟩
    exact ⟨jc, hjc, rfl⟩
  · rintro ⟨jc, hjc, rfl⟩
    exact ⟨jc, hjc, rfl⟩

theorem mem_detectBattles {events : List HitEvent} {b : Battle}
    (hb : b ∈ detectBattles events) : ∃ room, b ∈ battlesOfRoom events room := by
  unfold detectBattles at hb
  rw [List.mem_insertionSort] at hb
  rcases (foldl_append_mem _ _ _ _).mp hb with h | ⟨r, _, h⟩
  · exact absurd h (List.not_mem_nil b)
  · exact ⟨r, h⟩

/-! ## Claims C1 to C5 and C10 (team inference) -/

/-- C1: seed immutability.  Every user seeded with `Penguin` or `Reindeer` keeps
exactly that team, confidence 1 and source `"seeded"` in the result of
`inferTeamsWithBFS`, on every event list (seed keys are distinct, as they come
from a JavaScript object). -/
theorem c1_seed_immutability (events : List HitEvent) (seedTeams : List (String × String))
    (u t : String) (hnd : (seedTeams.map Prod.fst).Nodup) (hmem : (u, t) ∈ seedTeams)
    (hval : TeamVal t) :
    amGet (inferTeamsWithBFS events seedTeams).teamMap u = some t ∧
    amGet (inferTeamsWithBFS events seedTeams).confidence u = some 1 ∧
    amGet (inferTeamsWithBFS events seedTeams).inferenceSource u = some "seeded" := by
  rcases seedInit_lookup hnd hmem hval with ⟨h1, h2, h3⟩
  have hpos := buildAdj_pos events
  have hteamB : amGet (bfsStateOf events seedTeams).teamOf u = some t := by
    unfold bfsStateOf
    exact bfsFuel_team_mono _ _ h1
  have hsrcB : amGet (bfsStateOf events seedTeams).source u = some "seeded" := by
    unfold bfsStateOf
    exact bfsFuel_wf_source_mono hpos _ _ (wf_seedInit seedTeams) h2
  have hconfB : amGet (bfsStateOf events seedTeams).conf u = some 1 := by
    unfold bfsStateOf
    rw [bfsFuel_conf_eq]
    exact h3
  have hsrc_ne : amGet (bfsStateOf events seedTeams).source u ≠ some "inferred" := by
    rw [hsrcB]
    simp
  have hconfC : amGet (confStateOf events seedTeams).conf u = some 1 := by
    unfold confStateOf
    rw [confPass_conf_not_inferred hsrc_ne]
    exact hconfB
  have hteamD : amGet (conflictStateOf events seedTeams).teamOf u = some t := hteamB
  have hfinal := unknownPass_preserve hteamD (allUsersOf events)
  refine ⟨hfinal.1, ?_, ?_⟩
  · show amGet (unknownPass (allUsersOf events) (conflictStateOf events seedTeams)).conf u = some 1
    rw [hfinal.2.2]
    exact hconfC
  · show amGet (unknownPass (allUsersOf events) (conflictStateOf events seedTeams)).source u =
      some "seeded"
    rw [hfinal.2.1]
    exact hsrcB

/-- Witness for C1: the spec's inference scenario, seeded user `A`. -/
theorem c1_seed_immutability_witness :
    amGet (inferTeamsWithBFS ex1Events ex1Seed).teamMap "A" = some "Penguin" ∧
    amGet (inferTeamsWithBFS ex1Events ex1Seed).confidence "A" = some 1 ∧
    amGet (inferTeamsWithBFS ex1Events ex1Seed).inferenceSource "A" = some "seeded" :=
  c1_seed_immutability ex1Events ex1Seed "A" "Penguin" (by decide) (by decide) (by decide)

/-- C2: first-assignment-wins.  Assignments are never overwritten by a BFS
visit; the same-team branch of a visit appends exactly one conflict and leaves
every map untouched; the second conflict pass appends conflicts and leaves the
team, source and confidence maps untouched; every assignment surviving the BFS
phase is the one returned by `inferTeamsWithBFS`. -/
theorem c2_first_assignment_wins :
    (∀ (u ut : String) (st : InferState) (vw : String × Nat) (x t : String),
      amGet st.teamOf x = some t → amGet (visitEdge u ut st vw).teamOf x = some t) ∧
    (∀ (u ut : String) (st : InferState) (vw : String × Nat) (ct : String),
      amGet st.teamOf vw.1 = some ct → ct ≠ opposite ut →
      (visitEdge u ut st vw).teamOf = st.teamOf ∧
      (visitEdge u ut st vw).source = st.source ∧
      (visitEdge u ut st vw).conf = st.conf ∧
      (visitEdge u ut st vw).evidence = st.evidence ∧
      (visitEdge u ut st vw).conflicts = st.conflicts ++ [bfsConflict u ut st vw ct]) ∧
    (∀ st : InferState,
      (conflictPass st).teamOf = st.teamOf ∧ (conflictPass st).source = st.source ∧
      (conflictPass st).conf = st.conf ∧
      ∃ tail, (conflictPass st).conflicts = st.conflicts ++ tail) ∧
    (∀ (adj : Adj) (fuel : Nat) (st : InferState) (x t : String),
      amGet st.teamOf x = some t → amGet (bfsFuel adj fuel st).teamOf x = some t) ∧
    (∀ (events : List HitEvent) (seedTeams : List (String × String)) (u t : String),
      TeamVal t → amGet (bfsStateOf events seedTeams).teamOf u = some t →
      amGet (inferTeamsWithBFS events seedTeams).teamMap u = some t) := by
  refine ⟨?_, ?_, ?_, ?_, ?_⟩
  · intro u ut st vw x t hx
    exact visitEdge_team_mono hx
  · intro u ut st vw ct hv hct
    rcases visitEdge_cases u ut st vw with
      ⟨hv', _, _, _, _, _, _⟩ | ⟨ct', hv', hct', heq⟩ | ⟨hv', _, heq⟩ | ⟨hv', _, heq⟩
    · rw [hv'] at hv
      exact Option.noConfusion hv
    · have : ct' = ct := Option.some_injective _ (hv'.symm.trans hv)
      subst this
      rw [heq]
      exact ⟨rfl, rfl, rfl, rfl, rfl⟩
    · rw [hv'] at hv
      exact absurd (Option.some_injective _ hv).symm hct
    · rw [hv'] at hv
      exact absurd (Option.some_injective _ hv).symm hct
  · intro st
    exact ⟨rfl, rfl, rfl, (st.evidence.map (selfConflictsFor st)).flatten,
      conflictPass_conflicts_eq st⟩
  · intro adj fuel st x t hx
    exact bfsFuel_team_mono fuel st hx
  · intro events seedTeams u t _ hx
    exact (@unknownPass_preserve (conflictStateOf events seedTeams) _ _ hx
      (allUsersOf events)).1

/-- Witness for C2: all five conjuncts applied at concrete states from the
inference scenario. -/
theorem c2_first_assignment_wins_witness :
    amGet (visitEdge "A" "Penguin" (seedInit ex1Seed) ("B", 1)).teamOf "A" = some "Penguin" ∧
    ((visitEdge "A" "Penguin" (seedInit [("A", "Penguin"), ("B", "Penguin")]) ("B", 1)).teamOf =
        (seedInit [("A", "Penguin"), ("B", "Penguin")]).teamOf ∧
      (visitEdge "A" "Penguin" (seedInit [("A", "Penguin"), ("B", "Penguin")]) ("B", 1)).source =
        (seedInit [("A", "Penguin"), ("B", "Penguin")]).source ∧
      (visitEdge "A" "Penguin" (seedInit [("A", "Penguin"), ("B", "Penguin")]) ("B", 1)).conf =
        (seedInit [("A", "Penguin"), ("B", "Penguin")]).conf ∧
      (visitEdge "A" "Penguin" (seedInit [("A", "Penguin"), ("B", "Penguin")]) ("B", 1)).evidence =
        (seedInit [("A", "Penguin"), ("B", "Penguin")]).evidence ∧
      (visitEdge "A" "Penguin" (seedInit [("A", "Penguin"), ("B", "Penguin")]) ("B", 1)).conflicts =
        (seedInit [("A", "Penguin"), ("B", "Penguin")]).conflicts ++
          [bfsConflict "A" "Penguin" (seedInit [("A", "Penguin"), ("B", "Penguin")])
            ("B", 1) "Penguin"]) ∧
    amGet (bfsFuel (buildAdj ex1Events) 2 (seedInit ex1Seed)).teamOf "A" = some "Penguin" ∧
    amGet (inferTeamsWithBFS ex1Events ex1Seed).teamMap "B" = some "Reindeer" :=
  ⟨c2_first_assignment_wins.1 "A" "Penguin" (seedInit ex1Seed) ("B", 1) "A" "Penguin" (by decide),
    c2_first_assignment_wins.2.1 "A" "Penguin" (seedInit [("A", "Penguin"), ("B", "Penguin")])
      ("B", 1) "Penguin" (by decide) (by decide),
    c2_first_assignment_wins.2.2.2.1 (buildAdj ex1Events) 2 (seedInit ex1Seed) "A" "Penguin"
      (by decide),
    c2_first_assignment_wins.2.2.2.2 ex1Events ex1Seed "B" "Reindeer" (Or.inr rfl) (by decide)⟩

/-- C3: confidence formula and bounds.  Every user returned with source
`"inferred"` has a confidence equal to the two-decimal rounding of
`0.6·marginRatio + 0.4·evidenceBonus` over its accumulated evidence tally
(`confidenceOf`); a zero-evidence tally yields confidence 0; and every returned
confidence lies in `[0, 1]`. -/
theorem c3_confidence_formula (events : List HitEvent) (seedTeams : List (String × String)) :
    (∀ u : String,
      amGet (inferTeamsWithBFS events seedTeams).inferenceSource u = some "inferred" →
      ∃ tal : Tally, amGet (bfsStateOf events seedTeams).evidence u = some tal ∧
        amGet (inferTeamsWithBFS events seedTeams).confidence u = some (confidenceOf tal)) ∧
    (∀ tal : Tally, tal.penguinVotes + tal.reindeerVotes = 0 → confidenceOf tal = 0) ∧
    (∀ (u : String) (q : ℚ),
      amGet (inferTeamsWithBFS events seedTeams).confidence u = some q → 0 ≤ q ∧ q ≤ 1) := by
  have hpos := buildAdj_pos events
  have hwfB : WFState (bfsStateOf events seedTeams) := by
    unfold bfsStateOf
    exact wf_bfsFuel hpos _ _ (wf_seedInit seedTeams)
  refine ⟨?_, ?_, ?_⟩
  · intro u hsrcF
    have hsrcD : amGet (conflictStateOf events seedTeams).source u = some "inferred" := by
      rcases unknownPass_source_back (allUsersOf events) (conflictStateOf events seedTeams)
        hsrcF with h | h
      · exact h
      · simp at h
    have hsrcB : amGet (bfsStateOf events seedTeams).source u = some "inferred" := hsrcD
    rcases hwfB.infEvidence _ (amGet_mem hsrcB) rfl with ⟨tal, htal, _⟩
    refine ⟨tal, htal, ?_⟩
    have hconfC : amGet (confStateOf events seedTeams).conf u = some (confidenceOf tal) := by
      unfold confStateOf
      exact confPass_conf_inferred hwfB.evKeysNodup htal hsrcB
    rcases hwfB.srcTeam _ (amGet_mem hsrcB) with ⟨t0, hteamB⟩
    have hteamD : amGet (conflictStateOf events seedTeams).teamOf u = some t0 := hteamB
    have hfinal := unknownPass_preserve hteamD (allUsersOf events)
    show amGet (unknownPass (allUsersOf events) (conflictStateOf events seedTeams)).conf u =
      some (confidenceOf tal)
    rw [hfinal.2.2]
    exact hconfC
  · intro tal h
    rw [confidenceOf_eq]
    rw [if_pos (by exact_mod_cast h)]
  · intro u q hq
    have hvalsB := hwfB.confVals
    have hvalsC : ∀ p ∈ (confStateOf events seedTeams).conf, 0 ≤ p.2 ∧ p.2 ≤ 1 := by
      unfold confStateOf
      exact confPass_confVals hvalsB
    have hvalsD : ∀ p ∈ (conflictStateOf events seedTeams).conf, 0 ≤ p.2 ∧ p.2 ≤ 1 :=
      fun p hp => hvalsC p hp
    have hvalsF : ∀ p ∈ (inferRun events seedTeams).conf, 0 ≤ p.2 ∧ p.2 ≤ 1 := by
      unfold inferRun
      exact unknownPass_confVals hvalsD (allUsersOf events)
    exact hvalsF _ (amGet_mem hq)

/-- Witness for C3: the inferred user `B` of the spec's scenario. -/
theorem c3_confidence_formula_witness :
    (∃ tal : Tally, amGet (bfsStateOf ex1Events ex1Seed).evidence "B" = some tal ∧
      amGet (inferTeamsWithBFS ex1Events ex1Seed).confidence "B" = some (confidenceOf tal)) ∧
    (0 ≤ Rat.divInt 16 25 ∧ Rat.divInt 16 25 ≤ 1) :=
  ⟨(c3_confidence_formula ex1Events ex1Seed).1 "B" (by decide),
    (c3_confidence_formula ex1Events ex1Seed).2.2 "B" (Rat.divInt 16 25) (by decide)⟩

/-- C4: total coverage with Unknown defaults.  Every user appearing (non-empty)
in the events has entries in all three returned maps, and every such user with
no combat-graph path to a validly seeded user is returned as
`"Unknown"` / 0 / `"unknown"`. -/
theorem c4_total_coverage (events : List HitEvent) (seedTeams : List (String × String))
    (u : String) (hu : u ∈ allUsersOf events) :
    (∃ t, amGet (inferTeamsWithBFS events seedTeams).teamMap u = some t) ∧
    (∃ q, amGet (inferTeamsWithBFS events seedTeams).confidence u = some q) ∧
    (∃ s, amGet (inferTeamsWithBFS events seedTeams).inferenceSource u = some s) ∧
    (¬ Reachable (buildAdj events) (seedUsers seedTeams) u →
      amGet (inferTeamsWithBFS events seedTeams).teamMap u = some "Unknown" ∧
      amGet (inferTeamsWithBFS events seedTeams).confidence u = some 0 ∧
      amGet (inferTeamsWithBFS events seedTeams).inferenceSource u = some "unknown") := by
  have hpos := buildAdj_pos events
  have hwfB : WFState (bfsStateOf events seedTeams) := by
    unfold bfsStateOf
    exact wf_bfsFuel hpos _ _ (wf_seedInit seedTeams)
  cases hteam : amGet (bfsStateOf events seedTeams).teamOf u with
  | none =>
    have hsets := unknownPass_sets (allUsersOf events) (conflictStateOf events seedTeams) hu hteam
    exact ⟨⟨"Unknown", hsets.1⟩, ⟨0, hsets.2.2⟩, ⟨"unknown", hsets.2.1⟩,
      fun _ => ⟨hsets.1, hsets.2.2, hsets.2.1⟩⟩
  | some t =>
    rcases hwfB.teamSrc _ (amGet_mem hteam) with ⟨s, hsrc⟩
    have hfinal := @unknownPass_preserve (conflictStateOf events seedTeams) _ _ hteam
      (allUsersOf events)
    have hsrcF : amGet (inferTeamsWithBFS events seedTeams).inferenceSource u = some s := by
      show amGet (unknownPass (allUsersOf events) (conflictStateOf events seedTeams)).source u =
        some s
      rw [hfinal.2.1]
      exact hsrc
    have hconfF : ∃ q, amGet (inferTeamsWithBFS events seedTeams).confidence u = some q := by
      rcases hwfB.srcVals _ (amGet_mem hsrc) with hsd | hinf
      · have h1 : amGet (bfsStateOf events seedTeams).conf u = some 1 := by
          refine hwfB.seededConf (u, s) (amGet_mem hsrc) hsd
        have hsd' : s = "seeded" := hsd
        have hne : amGet (bfsStateOf events seedTeams).source u ≠ some "inferred" := by
          rw [hsrc, hsd']
          simp
        refine ⟨1, ?_⟩
        show amGet (unknownPass (allUsersOf events) (conflictStateOf events seedTeams)).conf u =
          some 1
        rw [hfinal.2.2]
        show amGet (confStateOf events seedTeams).conf u = some 1
        unfold confStateOf
        rw [confPass_conf_not_inferred hne]
        exact h1
      · rcases hwfB.infEvidence _ (amGet_mem hsrc) hinf with ⟨tal, htal, _⟩
        refine ⟨confidenceOf tal, ?_⟩
        show amGet (unknownPass (allUsersOf events) (conflictStateOf events seedTeams)).conf u =
          some (confidenceOf tal)
        rw [hfinal.2.2]
        show amGet (confStateOf events seedTeams).conf u = some (confidenceOf tal)
        unfold confStateOf
        refine confPass_conf_inferred hwfB.evKeysNodup htal ?_
        have hinf' : s = "inferred" := hinf
        rw [hsrc, hinf']
    refine ⟨⟨t, hfinal.1⟩, hconfF, ⟨s, hsrcF⟩, ?_⟩
    intro hnr
    exact absurd (bfsStateOf_reach hteam) hnr

/-- Witness for C4: user `C` of the spec's scenario. -/
theorem c4_total_coverage_witness :
    (∃ t, amGet (inferTeamsWithBFS ex1Events ex1Seed).teamMap "C" = some t) ∧
    (∃ q, amGet (inferTeamsWithBFS ex1Events ex1Seed).confidence "C" = some q) ∧
    (∃ s, amGet (inferTeamsWithBFS ex1Events ex1Seed).inferenceSource "C" = some s) ∧
    (¬ Reachable (buildAdj ex1Events) (seedUsers ex1Seed) "C" →
      amGet (inferTeamsWithBFS ex1Events ex1Seed).teamMap "C" = some "Unknown" ∧
      amGet (inferTeamsWithBFS ex1Events ex1Seed).confidence "C" = some 0 ∧
      amGet (inferTeamsWithBFS ex1Events ex1Seed).inferenceSource "C" = some "unknown") :=
  c4_total_coverage ex1Events ex1Seed "C" (by decide)

/-- C5: self-contradiction conflict pass.  The second conflict pass changes no
team, source or confidence entry, and a second-kind conflict for an evidence
entry is in the output precisely when the entry's user is inferred and the
opposing team's votes strictly exceed twice the assigned team's votes. -/
theorem c5_self_contradiction_pass (events : List HitEvent)
    (seedTeams : List (String × String)) :
    ((conflictStateOf events seedTeams).teamOf = (confStateOf events seedTeams).teamOf ∧
      (conflictStateOf events seedTeams).source = (confStateOf events seedTeams).source ∧
      (conflictStateOf events seedTeams).conf = (confStateOf events seedTeams).conf) ∧
    (∀ c : Conflict,
      c ∈ (conflictStateOf events seedTeams).conflicts ↔
        c ∈ (confStateOf events seedTeams).conflicts ∨
        ∃ p ∈ (confStateOf events seedTeams).evidence,
          amGet (confStateOf events seedTeams).source p.1 = some "inferred" ∧
          ((amGet (confStateOf events seedTeams).teamOf p.1 = some "Penguin" ∧
              p.2.reindeerVotes > p.2.penguinVotes * 2 ∧
              c = selfConflict p.1 "Penguin" "Reindeer" p.2.reindeerVotes) ∨
            (amGet (confStateOf events seedTeams).teamOf p.1 = some "Reindeer" ∧
              p.2.penguinVotes > p.2.reindeerVotes * 2 ∧
              c = selfConflict p.1 "Reindeer" "Penguin" p.2.penguinVotes))) := by
  refine ⟨⟨rfl, rfl, rfl⟩, ?_⟩
  intro c
  unfold conflictStateOf
  rw [mem_conflictPass_iff]
  constructor
  · rintro (h | ⟨p, hp, hc⟩)
    · exact Or.inl h
    · rcases mem_selfConflictsFor_iff.mp hc with ⟨hsrc, hcond⟩
      exact Or.inr ⟨p, hp, hsrc, hcond⟩
  · rintro (h | ⟨p, hp, hsrc, hcond⟩)
    · exact Or.inl h
    · exact Or.inr ⟨p, hp, mem_selfConflictsFor_iff.mpr ⟨hsrc, hcond⟩⟩

/-- Witness for C5: the iff applied to a concrete conflict record in the spec's
scenario. -/
theorem c5_self_contradiction_pass_witness :
    selfConflict "B" "Penguin" "Reindeer" 3 ∈ (conflictStateOf ex1Events ex1Seed).conflicts ↔
      selfConflict "B" "Penguin" "Reindeer" 3 ∈ (confStateOf ex1Events ex1Seed).conflicts ∨
      ∃ p ∈ (confStateOf ex1Events ex1Seed).evidence,
        amGet (confStateOf ex1Events ex1Seed).source p.1 = some "inferred" ∧
        ((amGet (confStateOf ex1Events ex1Seed).teamOf p.1 = some "Penguin" ∧
            p.2.reindeerVotes > p.2.penguinVotes * 2 ∧
            selfConflict "B" "Penguin" "Reindeer" 3 =
              selfConflict p.1 "Penguin" "Reindeer" p.2.reindeerVotes) ∨
          (amGet (confStateOf ex1Events ex1Seed).teamOf p.1 = some "Reindeer" ∧
            p.2.penguinVotes > p.2.reindeerVotes * 2 ∧
            selfConflict "B" "Penguin" "Reindeer" 3 =
              selfConflict p.1 "Reindeer" "Penguin" p.2.penguinVotes)) :=
  (c5_self_contradiction_pass ex1Events ex1Seed).2 (selfConflict "B" "Penguin" "Reindeer" 3)

set_option maxRecDepth 100000 in
/-- C10 counterexample: the user `X` is seeded with the invalid value
`"unknown"` and is therefore skipped by seeding, yet after inference its
returned confidence IS 1.0 (as an inferred user with 20 unanimous votes),
contradicting the claim that such a user "gets no confidence of 1.0". -/
theorem c10_counterexample :
    ("X", "unknown") ∈ c10Seed ∧ ¬ TeamVal "unknown" ∧
    (c10Seed.map Prod.fst).Nodup ∧
    amGet (inferTeamsWithBFS c10Events c10Seed).confidence "X" = some 1 ∧
    amGet (inferTeamsWithBFS c10Events c10Seed).inferenceSource "X" = some "inferred" := by
  refine ⟨by decide, by decide, by decide, by decide, by decide⟩

/-- C10 (amended): an entry of the seed map whose value is neither exactly
`"Penguin"` nor `"Reindeer"` is ignored by the seeding phase — after seeding,
the user has no team, confidence or source entry and is not in the BFS queue —
its returned source is never `"seeded"`, and it ends up
`"Unknown"` / 0 / `"unknown"` (or entirely absent when it appears in no event)
unless it is reachable from a validly seeded user through the combat graph; a
reachable such user is inferred like any unseeded user, and inference may
assign it any confidence up to and including 1.0. -/
theorem c10_amended (events : List HitEvent) (seedTeams : List (String × String))
    (u t : String) (hnd : (seedTeams.map Prod.fst).Nodup) (hmem : (u, t) ∈ seedTeams)
    (hinv : ¬ TeamVal t) :
    (amGet (seedInit seedTeams).teamOf u = none ∧
      amGet (seedInit seedTeams).source u = none ∧
      amGet (seedInit seedTeams).conf u = none ∧
      u ∉ (seedInit seedTeams).queue) ∧
    amGet (inferTeamsWithBFS events seedTeams).inferenceSource u ≠ some "seeded" ∧
    (¬ Reachable (buildAdj events) (seedUsers seedTeams) u →
      (u ∈ allUsersOf events →
        amGet (inferTeamsWithBFS events seedTeams).teamMap u = some "Unknown" ∧
        amGet (inferTeamsWithBFS events seedTeams).confidence u = some 0 ∧
        amGet (inferTeamsWithBFS events seedTeams).inferenceSource u = some "unknown") ∧
      (u ∉ allUsersOf events →
        amGet (inferTeamsWithBFS events seedTeams).teamMap u = none)) := by
  have hnotseed : u ∉ seedUsers seedTeams := invalid_seed_not_seedUser hnd hmem hinv
  have hnone := seedInit_none hnotseed
  refine ⟨⟨hnone.1, hnone.2.1, hnone.2.2.1, hnone.2.2.2⟩, ?_, ?_⟩
  · intro hseeded
    have hsrcD : amGet (conflictStateOf events seedTeams).source u = some "seeded" := by
      rcases unknownPass_source_back (allUsersOf events) (conflictStateOf events seedTeams)
        hseeded with h | h
      · exact h
      · simp at h
    have hsrcB : amGet (bfsStateOf events seedTeams).source u = some "seeded" := hsrcD
    have : amGet (seedInit seedTeams).source u = some "seeded" := by
      have := @bfsFuel_source_back _ u "seeded" _ _
        (by
          show amGet (bfsFuel (buildAdj events)
            (2 * (buildAdj events).length + (seedInit seedTeams).queue.length)
            (seedInit seedTeams)).source u = some "seeded"
          exact hsrcB)
      rcases this with h | h
      · exact h
      · simp at h
    rw [hnone.2.1] at this
    exact Option.noConfusion this
  · intro hnr
    have hteamB : amGet (bfsStateOf events seedTeams).teamOf u = none := by
      cases hteam : amGet (bfsStateOf events seedTeams).teamOf u with
      | none => rfl
      | some t0 => exact absurd (bfsStateOf_reach hteam) hnr
    constructor
    · intro hu
      have hsets := unknownPass_sets (allUsersOf events) (conflictStateOf events seedTeams)
        hu hteamB
      exact ⟨hsets.1, hsets.2.2, hsets.2.1⟩
    · intro hu
      show amGet (unknownPass (allUsersOf events) (conflictStateOf events seedTeams)).teamOf u =
        none
      exact unknownPass_not_mem_none (allUsersOf events) _ hu hteamB

/-- Witness for the amended C10 at the counterexample input. -/
theorem c10_amended_witness :
    (amGet (seedInit c10Seed).teamOf "X" = none ∧
      amGet (seedInit c10Seed).source "X" = none ∧
      amGet (seedInit c10Seed).conf "X" = none ∧
      "X" ∉ (seedInit c10Seed).queue) ∧
    amGet (inferTeamsWithBFS c10Events c10Seed).inferenceSource "X" ≠ some "seeded" ∧
    (¬ Reachable (buildAdj c10Events) (seedUsers c10Seed) "X" →
      ("X" ∈ allUsersOf c10Events →
        amGet (inferTeamsWithBFS c10Events c10Seed).teamMap "X" = some "Unknown" ∧
        amGet (inferTeamsWithBFS c10Events c10Seed).confidence "X" = some 0 ∧
        amGet (inferTeamsWithBFS c10Events c10Seed).inferenceSource "X" = some "unknown") ∧
      ("X" ∉ allUsersOf c10Events →
        amGet (inferTeamsWithBFS c10Events c10Seed).teamMap "X" = none)) :=
  c10_amended c10Events c10Seed "X" "unknown" (by decide) (by decide) (by decide)


/-! ## Claims C6 to C9 (battle detection) -/

theorem chain_gapLE_all_valid (g : Int) :
    ∀ c : List TEvent, List.Chain' (gapLE g) c → 2 ≤ c.length → ∀ e ∈ c, ∃ v, e.t = some v := by
  intro c
  induction c with
  | nil =>
    intro _ _ e he
    exact absurd he (List.not_mem_nil e)
  | cons a c ih =>
    intro hch hlen e he
    cases c with
    | nil => simp at hlen
    | cons b c2 =>
      have hab : gapLE g a b := (List.chain'_cons.mp hch).1
      have hav : (∃ v, a.t = some v) ∧ ∃ w, b.t = some w := by
        unfold gapLE gapOkB at hab
        cases hat : a.t with
        | none => rw [hat] at hab; simp at hab
        | some p =>
          cases hbt : b.t with
          | none => rw [hat, hbt] at hab; simp at hab
          | some x => exact ⟨⟨p, rfl⟩, ⟨x, rfl⟩⟩
      rcases List.mem_cons.mp he with rfl | he2
      · exact hav.1
      · cases c2 with
        | nil =>
          have heb : e = b := by simpa using he2
          rw [heb]
          exact hav.2
        | cons d c3 =>
          exact ih (List.chain'_cons.mp hch).2 (by simp) e he2

set_option maxRecDepth 100000 in
/-- C6 counterexample: the timestamp `"2024-01-15 10:15"` has no seconds
component, so the source's `Number.isNaN` guard passes `undefined` and keeps
the event as a truthy invalid `Date`.  Sitting between two 30-event blocks 60
seconds apart, its `NaN` gaps flush both sides: `detectBattles` emits two
battles whose clusters are separated in the room's kept sequence only by the
invalid event (no defined gap at all) and whose nearest valid events are 60 s
apart — not the claimed strictly-more-than-120 s boundary. -/
theorem c6_counterexample :
    parseEventTime "2024-01-15 10:15" = some none ∧
    (((timedSorted c6Events "Lobby").map (fun te => te.t)).drop 29).take 3 =
      [some 1705313670000, none, some 1705313730000] ∧
    (detectBattles c6Events).map (fun b => (b.hitCount, b.startMs, b.endMs)) =
      [(30, 1705313730000, 1705314600000), (30, 1705312800000, 1705313670000)] ∧
    ¬ (BATTLE_MAX_GAP_SECONDS * 1000 < (1705313730000 : Int) - 1705313670000) := by
  refine ⟨by decide, by decide, by decide, by decide⟩

/-- C6 (amended): every battle of a room comes from a cluster `c` of the
room's kept (possibly invalid-date-splitted) event sequence `pre ++ c ++ post`:
all events of `c` carry valid timestamps, consecutive events of `c` are at
most `BATTLE_MAX_GAP_SECONDS` seconds apart, and against the neighbouring
event on either side (when it exists) the sweep's gap test failed — the
neighbour is strictly more than `BATTLE_MAX_GAP_SECONDS` seconds away whenever
its own timestamp is valid, and carries no defined gap otherwise. -/
theorem c6_amended (events : List HitEvent) (room : String) (b : Battle)
    (hb : b ∈ battlesOfRoom events room) :
    ∃ pre c post : List TEvent,
      timedSorted events room = pre ++ (c ++ post) ∧
      b.hitCount = c.length ∧
      (∀ e ∈ c, ∃ v, e.t = some v) ∧
      c.head?.bind TEvent.t = some b.startMs ∧
      c.getLast?.bind TEvent.t = some b.endMs ∧
      List.Chain' (gapLE (BATTLE_MAX_GAP_SECONDS * 1000)) c ∧
      (∀ x ∈ pre.getLast?, ∀ y ∈ c.head?,
        gapOkB (BATTLE_MAX_GAP_SECONDS * 1000) x.t y.t = false) ∧
      (∀ x ∈ c.getLast?, ∀ y ∈ post.head?,
        gapOkB (BATTLE_MAX_GAP_SECONDS * 1000) x.t y.t = false) ∧
      (∀ x ∈ pre.getLast?, ∀ tx ∈ x.t, ∀ y ∈ c.head?, ∀ ty ∈ y.t,
        BATTLE_MAX_GAP_SECONDS * 1000 < ty - tx) ∧
      (∀ x ∈ c.getLast?, ∀ tx ∈ x.t, ∀ y ∈ post.head?, ∀ ty ∈ y.t,
        BATTLE_MAX_GAP_SECONDS * 1000 < ty - tx) := by
  rcases mem_battlesOfRoom.mp hb with ⟨jc, hjc, rfl⟩
  have hcf := List.mem_filter.mp (numberFrom_mem _ _ _ _ hjc)
  have hcmem := hcf.1
  have hclen : BATTLE_MIN_HITS ≤ jc.2.length := by simpa using hcf.2
  have hprops := clustersOf_props (BATTLE_MAX_GAP_SECONDS * 1000) (timedSorted events room)
  have hcne : jc.2 ≠ [] := hprops.2.1 _ hcmem
  have hchain := hprops.2.2.1 _ hcmem
  have hvalid : ∀ e ∈ jc.2, ∃ v, e.t = some v :=
    chain_gapLE_all_valid _ _ hchain (Nat.le_trans (by decide) hclen)
  obtain ⟨pre, post, hsplit, hL, hR⟩ :=
    mem_split_of_chain' _ _ hprops.2.1 hprops.2.2.2 _ hcmem
  refine ⟨pre, jc.2, post, ?_, rfl, hvalid, ?_, ?_, hchain, hL, hR, ?_, ?_⟩
  · rw [← hprops.1, hsplit]
  · cases hh : jc.2.head? with
    | none => exact absurd (List.head?_eq_none_iff.mp hh) hcne
    | some e =>
      obtain ⟨v, hv⟩ := hvalid e (List.mem_of_mem_head? (Option.mem_def.mpr hh))
      have hs : (mkBattle room jc.1 jc.2).startMs =
          (jc.2.head?.bind (fun te => te.t)).getD 0 := rfl
      rw [hs, hh]
      simp only [Option.some_bind]
      rw [hv]
      rfl
  · cases hg : jc.2.getLast? with
    | none => exact absurd (List.getLast?_eq_none_iff.mp hg) hcne
    | some e =>
      obtain ⟨v, hv⟩ := hvalid e (List.mem_of_mem_getLast? (Option.mem_def.mpr hg))
      have hs : (mkBattle room jc.1 jc.2).endMs =
          (jc.2.getLast?.bind (fun te => te.t)).getD 0 := rfl
      rw [hs, hg]
      simp only [Option.some_bind]
      rw [hv]
      rfl
  · intro x hx tx htx y hy ty hty
    have hng := hL x hx y hy
    rw [Option.mem_def.mp htx, Option.mem_def.mp hty] at hng
    simp only [gapOkB, decide_eq_false_iff_not] at hng
    omega
  · intro x hx tx htx y hy ty hty
    have hng := hR x hx y hy
    rw [Option.mem_def.mp htx, Option.mem_def.mp hty] at hng
    simp only [gapOkB, decide_eq_false_iff_not] at hng
    omega

set_option maxRecDepth 100000 in
/-- Witness for the amended C6: the single battle of the C8 scenario. -/
theorem c6_amended_witness :
    mkBattle "Lobby" 1 c8Cluster ∈ battlesOfRoom c8Events "Lobby" ∧
    (∃ pre c post : List TEvent,
      timedSorted c8Events "Lobby" = pre ++ (c ++ post) ∧
      (mkBattle "Lobby" 1 c8Cluster).hitCount = c.length ∧
      (∀ e ∈ c, ∃ v, e.t = some v) ∧
      c.head?.bind TEvent.t = some (mkBattle "Lobby" 1 c8Cluster).startMs ∧
      c.getLast?.bind TEvent.t = some (mkBattle "Lobby" 1 c8Cluster).endMs ∧
      List.Chain' (gapLE (BATTLE_MAX_GAP_SECONDS * 1000)) c ∧
      (∀ x ∈ pre.getLast?, ∀ y ∈ c.head?,
        gapOkB (BATTLE_MAX_GAP_SECONDS * 1000) x.t y.t = false) ∧
      (∀ x ∈ c.getLast?, ∀ y ∈ post.head?,
        gapOkB (BATTLE_MAX_GAP_SECONDS * 1000) x.t y.t = false) ∧
      (∀ x ∈ pre.getLast?, ∀ tx ∈ x.t, ∀ y ∈ c.head?, ∀ ty ∈ y.t,
        BATTLE_MAX_GAP_SECONDS * 1000 < ty - tx) ∧
      (∀ x ∈ c.getLast?, ∀ tx ∈ x.t, ∀ y ∈ post.head?, ∀ ty ∈ y.t,
        BATTLE_MAX_GAP_SECONDS * 1000 < ty - tx)) :=
  ⟨by decide, c6_amended c8Events "Lobby" _ (by decide)⟩

/-- C7: battle minimum-size invariant.  Every emitted battle has at least
`BATTLE_MIN_HITS` events, and per room the emitted battles' hit counts are
exactly (in order) the sizes of the qualifying clusters: clusters below the
minimum contribute nothing and are not merged into neighbours. -/
theorem c7_battle_minimum_size (events : List HitEvent) :
    (∀ b ∈ detectBattles events, BATTLE_MIN_HITS ≤ b.hitCount) ∧
    (∀ room : String,
      (battlesOfRoom events room).map Battle.hitCount =
        ((clustersOf (BATTLE_MAX_GAP_SECONDS * 1000) (timedSorted events room)).filter
          (fun c => decide (BATTLE_MIN_HITS ≤ c.length))).map List.length) := by
  constructor
  · intro b hb
    rcases mem_detectBattles hb with ⟨room, hbr⟩
    rcases mem_battlesOfRoom.mp hbr with ⟨jc, hjc, rfl⟩
    have hcf := List.mem_filter.mp (numberFrom_mem _ _ _ _ hjc)
    have hlen : BATTLE_MIN_HITS ≤ jc.2.length := by simpa using hcf.2
    exact hlen
  · intro room
    simp only [battlesOfRoom]
    rw [List.map_map]
    have h1 : (Battle.hitCount ∘ fun ic : Nat × List TEvent => mkBattle room ic.1 ic.2) =
        fun ic : Nat × List TEvent => List.length ic.2 := rfl
    rw [h1, numberFrom_map_snd]

set_option maxRecDepth 100000 in
/-- Witness for C7: the single battle of the C8 scenario has 35 ≥ 30 hits and
the map identity holds for its room. -/
theorem c7_battle_minimum_size_witness :
    mkBattle "Lobby" 1 c8Cluster ∈ detectBattles c8Events ∧
    BATTLE_MIN_HITS ≤ (mkBattle "Lobby" 1 c8Cluster).hitCount ∧
    (battlesOfRoom c8Events "Lobby").map Battle.hitCount =
      ((clustersOf (BATTLE_MAX_GAP_SECONDS * 1000) (timedSorted c8Events "Lobby")).filter
        (fun c => decide (BATTLE_MIN_HITS ≤ c.length))).map List.length :=
  ⟨by decide, (c7_battle_minimum_size c8Events).1 _ (by decide),
    (c7_battle_minimum_size c8Events).2 "Lobby"⟩

set_option maxRecDepth 100000 in
/-- C8 counterexample: on the spec's own scenario (35 events 30 s apart from
10:00:00, then a lone 10:20:00 event) the emitted battle has `hitCount = 35`
but `durationMinutes = 17` — `round((34·30·1000)/60000) = round(17)` — not the
claimed 18. -/
theorem c8_counterexample :
    (detectBattles c8Events).map (fun b => (b.roomName, b.hitCount, b.durationMinutes)) =
      [("Lobby", 35, 17)] := by
  decide

set_option maxRecDepth 100000 in
/-- C8 (amended): every battle's duration is
`max 1 (round((endMs − startMs) / 60000))` — on the spec's scenario the cluster
spans 34 gaps of 30 s, so the single battle has `hitCount = 35` and
`durationMinutes = 17` (the lone 10:20:00 event is discarded). -/
theorem c8_amended (events : List HitEvent) :
    (∀ b ∈ detectBattles events,
      b.durationMinutes = max 1 (jsRound (Rat.divInt (b.endMs - b.startMs) 60000))) ∧
    (detectBattles c8Events).map (fun b => (b.roomName, b.hitCount, b.durationMinutes)) =
      [("Lobby", 35, 17)] := by
  constructor
  · intro b hb
    rcases mem_detectBattles hb with ⟨room, hbr⟩
    rcases mem_battlesOfRoom.mp hbr with ⟨jc, hjc, rfl⟩
    rfl
  · decide

set_option maxRecDepth 100000 in
/-- Witness for the amended C8: the duration formula evaluated on the
scenario's battle. -/
theorem c8_amended_witness :
    (mkBattle "Lobby" 1 c8Cluster).durationMinutes =
      max 1 (jsRound (Rat.divInt ((mkBattle "Lobby" 1 c8Cluster).endMs -
        (mkBattle "Lobby" 1 c8Cluster).startMs) 60000)) :=
  (c8_amended c8Events).1 _ (by decide)

set_option maxRecDepth 100000 in
/-- C9 counterexample: in the C9 scenario the attackers in first-appearance
order are `A`, `B`, `C` with 1, 1 and 33 attacks.  Breaking the `A`/`B` tie in
first-appearance order (the claim's reading, `topAttackersSpec`) gives
`[C, A, B]`, but the code stable-sorts the *participants* array — already
sorted by total activity, putting `B` (34 touches) before `A` (1) — and emits
`[C, B, A]`. -/
theorem c9_counterexample :
    (detectBattles c9Events).map (fun b => b.topAttackers.map TopAttacker.user) =
      [["C", "B", "A"]] ∧
    (topAttackersSpec c9Cluster).map TopAttacker.user = ["C", "A", "B"] ∧
    (detectBattles c9Events).map Battle.hitCount = [35] := by
  refine ⟨by decide, by decide, by decide⟩

/-- C9 (amended): for every battle, `participants` is the cluster's
first-appearance stats stably sorted by total activity descending (ties in
first-appearance order), and `topAttackers`/`topVictims` are the first three of
a stable attacks- or hitsTaken-descending sort of the positive entries of that
*already total-sorted* `participants` array — so their ties follow the
total-activity order, not first-appearance order. -/
theorem c9_amended (events : List HitEvent) (room : String) (b : Battle)
    (hb : b ∈ battlesOfRoom events room) :
    ∃ c ∈ clustersOf (BATTLE_MAX_GAP_SECONDS * 1000) (timedSorted events room),
      b.hitCount = c.length ∧
      b.participants.Perm (baseParticipants c) ∧
      List.Sorted totalDesc b.participants ∧
      (∀ p q : Participant, List.Sublist [p, q] (baseParticipants c) → totalDesc p q →
        List.Sublist [p, q] b.participants) ∧
      (∃ sa : List Participant,
        sa.Perm (b.participants.filter (fun p => decide (0 < p.attacks))) ∧
        List.Sorted attacksDesc sa ∧
        (∀ p q : Participant,
          List.Sublist [p, q] (b.participants.filter (fun p => decide (0 < p.attacks))) →
          attacksDesc p q → List.Sublist [p, q] sa) ∧
        b.topAttackers = (sa.take 3).map
          (fun p => { user := p.user, team := p.team, attacks := p.attacks })) ∧
      (∃ sv : List Participant,
        sv.Perm (b.participants.filter (fun p => decide (0 < p.hitsTaken))) ∧
        List.Sorted hitsDesc sv ∧
        (∀ p q : Participant,
          List.Sublist [p, q] (b.participants.filter (fun p => decide (0 < p.hitsTaken))) →
          hitsDesc p q → List.Sublist [p, q] sv) ∧
        b.topVictims = (sv.take 3).map
          (fun p => { user := p.user, team := p.team, hitsTaken := p.hitsTaken })) := by
  rcases mem_battlesOfRoom.mp hb with ⟨jc, hjc, rfl⟩
  have hcf := List.mem_filter.mp (numberFrom_mem _ _ _ _ hjc)
  refine ⟨jc.2, hcf.1, rfl, ?_, ?_, ?_, ?_, ?_⟩
  · exact List.perm_insertionSort totalDesc _
  · exact List.sorted_insertionSort totalDesc _
  · intro p q hsub hpq
    exact List.pair_sublist_insertionSort hpq hsub
  · refine ⟨List.insertionSort attacksDesc
      ((mkBattle room jc.1 jc.2).participants.filter (fun p => decide (0 < p.attacks))),
      List.perm_insertionSort _ _, List.sorted_insertionSort _ _, ?_, rfl⟩
    intro p q hsub hpq
    exact List.pair_sublist_insertionSort hpq hsub
  · refine ⟨List.insertionSort hitsDesc
      ((mkBattle room jc.1 jc.2).participants.filter (fun p => decide (0 < p.hitsTaken))),
      List.perm_insertionSort _ _, List.sorted_insertionSort _ _, ?_, rfl⟩
    intro p q hsub hpq
    exact List.pair_sublist_insertionSort hpq hsub

set_option maxRecDepth 100000 in
/-- Witness for the amended C9: its conclusion instantiated on the C9
scenario's battle. -/
theorem c9_amended_witness :
    mkBattle "R" 1 c9Cluster ∈ battlesOfRoom c9Events "R" ∧
    (∃ c ∈ clustersOf (BATTLE_MAX_GAP_SECONDS * 1000) (timedSorted c9Events "R"),
      (mkBattle "R" 1 c9Cluster).hitCount = c.length ∧
      (mkBattle "R" 1 c9Cluster).participants.Perm (baseParticipants c) ∧
      List.Sorted totalDesc (mkBattle "R" 1 c9Cluster).participants ∧
      (∀ p q : Participant, List.Sublist [p, q] (baseParticipants c) → totalDesc p q →
        List.Sublist [p, q] (mkBattle "R" 1 c9Cluster).participants) ∧
      (∃ sa : List Participant,
        sa.Perm ((mkBattle "R" 1 c9Cluster).participants.filter
          (fun p => decide (0 < p.attacks))) ∧
        List.Sorted attacksDesc sa ∧
        (∀ p q : Participant,
          List.Sublist [p, q] ((mkBattle "R" 1 c9Cluster).participants.filter
            (fun p => decide (0 < p.attacks))) →
          attacksDesc p q → List.Sublist [p, q] sa) ∧
        (mkBattle "R" 1 c9Cluster).topAttackers = (sa.take 3).map
          (fun p => { user := p.user, team := p.team, attacks := p.attacks })) ∧
      (∃ sv : List Participant,
        sv.Perm ((mkBattle "R" 1 c9Cluster).participants.filter
          (fun p => decide (0 < p.hitsTaken))) ∧
        List.Sorted hitsDesc sv ∧
        (∀ p q : Participant,
          List.Sublist [p, q] ((mkBattle "R" 1 c9Cluster).participants.filter
            (fun p => decide (0 < p.hitsTaken))) →
          hitsDesc p q → List.Sublist [p, q] sv) ∧
        (mkBattle "R" 1 c9Cluster).topVictims = (sv.take 3).map
          (fun p => { user := p.user, team := p.team, hitsTaken := p.hitsTaken }))) :=
  ⟨by decide, c9_amended c9Events "R" _ (by decide)⟩

end Snowball
